/-
Verification of the redhdl place-and-route core.

This file gives a shallow embedding, in Lean 4, of the parts of the redhdl
code base that the verified claims are about:

  - voxel primitives and the region algebra (redhdl/voxel/region.py),
  - the naive bussing heuristics (redhdl/assembly/naive_bussing.py),
  - the simulated-annealing framework (redhdl/search/local_search.py),
  - the generic A* path search framework, including a faithful model of
    CPython's heapq (redhdl/search/path_search.py),
  - the redstone wire router (redhdl/bussing/redstone_bussing.py).

Python conventions are mapped as follows: int becomes Int (arbitrary
precision in both languages); float-valued costs, which only ever carry
integer or small rational values in this code base, become Int or Rat;
frozenset[Pos] becomes Finset Pos; frozendict built from a list of pairs
becomes an association list where the last binding wins; functions that can
raise become Option- or Except-valued functions; randomness is threaded as
explicit oracle parameters.

Definitions mirror the Python source; theorems about them follow at the end
of the file.
-/
import Mathlib

set_option maxHeartbeats 1000000

/-! # Voxel primitives (redhdl/voxel/region.py) -/

/-- Integer voxel coordinate triple, mirroring region.py's Pos NamedTuple. -/
structure Pos where
  x : Int
  y : Int
  z : Int
deriving DecidableEq, Repr

/-- Pos.__add__: elementwise addition. -/
def Pos.add (a b : Pos) : Pos := ⟨a.x + b.x, a.y + b.y, a.z + b.z⟩

instance : Add Pos := ⟨Pos.add⟩

/-- Pos.__sub__: elementwise subtraction. -/
def Pos.sub (a b : Pos) : Pos := ⟨a.x - b.x, a.y - b.y, a.z - b.z⟩

instance : Sub Pos := ⟨Pos.sub⟩

/-- Pos.__neg__. -/
def Pos.neg (a : Pos) : Pos := ⟨-a.x, -a.y, -a.z⟩

instance : Neg Pos := ⟨Pos.neg⟩

/-- Pos.__abs__: elementwise absolute value. -/
def Pos.abs (a : Pos) : Pos := ⟨|a.x|, |a.y|, |a.z|⟩

/-- Pos.elem_min of two points (the Python classmethod on a point list). -/
def Pos.elem_min (a b : Pos) : Pos := ⟨min a.x b.x, min a.y b.y, min a.z b.z⟩

/-- Pos.elem_max of two points. -/
def Pos.elem_max (a b : Pos) : Pos := ⟨max a.x b.x, max a.y b.y, max a.z b.z⟩

/-- Pos.y_rotated: quarter-turn rotation table indexed by quarter_turns % 4. -/
def Pos.y_rotated (p : Pos) (quarter_turns : Nat) : Pos :=
  match quarter_turns % 4 with
  | 0 => ⟨p.x, p.y, p.z⟩
  | 1 => ⟨p.z, p.y, -p.x⟩
  | 2 => ⟨-p.x, p.y, -p.z⟩
  | _ => ⟨-p.z, p.y, p.x⟩

/-- Pos.is_zero. -/
def Pos.is_zero (p : Pos) : Bool := p = ⟨0, 0, 0⟩

/-- Pos.l1: sum of elementwise absolute values. -/
def Pos.l1 (p : Pos) : Int := |p.x| + |p.y| + |p.z|

/-- Pos.xz_pos: project to the horizontal plane. -/
def Pos.xz_pos (p : Pos) : Pos := ⟨p.x, 0, p.z⟩

/-- Pos.__le__: componentwise comparison (all components). -/
def Pos.le (a b : Pos) : Bool := a.x ≤ b.x && a.y ≤ b.y && a.z ≤ b.z

/-- zero_pos. -/
def zero_pos : Pos := ⟨0, 0, 0⟩

/-- The six-direction enumeration from region.py. -/
inductive Direction where
  | up
  | down
  | north
  | east
  | south
  | west
deriving DecidableEq, Repr

/-- directions: the list of all six directions, in source order. -/
def directions : List Direction :=
  [.up, .down, .north, .east, .south, .west]

/-- xz_directions, in source order. -/
def xz_directions : List Direction := [.north, .east, .south, .west]

/-- direction_unit_pos table. -/
def direction_unit_pos : Direction → Pos
  | .west => ⟨-1, 0, 0⟩
  | .down => ⟨0, -1, 0⟩
  | .north => ⟨0, 0, -1⟩
  | .east => ⟨1, 0, 0⟩
  | .up => ⟨0, 1, 0⟩
  | .south => ⟨0, 0, 1⟩

/-- opposite_direction involution table. -/
def opposite_direction : Direction → Direction
  | .north => .south
  | .south => .north
  | .up => .down
  | .down => .up
  | .east => .west
  | .west => .east

/-- Axes, for direction_axis_is_pos. -/
inductive Axis where
  | x
  | y
  | z
deriving DecidableEq, Repr

/-- direction_by_axis_is_pos table. -/
def direction_by_axis_is_pos : Axis × Bool → Direction
  | (.x, true) => .east
  | (.z, true) => .south
  | (.x, false) => .west
  | (.z, false) => .north
  | (.y, true) => .up
  | (.y, false) => .down

/-- direction_axis_is_pos: inverse of direction_by_axis_is_pos. -/
def direction_axis_is_pos : Direction → Axis × Bool
  | .east => (.x, true)
  | .south => (.z, true)
  | .west => (.x, false)
  | .north => (.z, false)
  | .up => (.y, true)
  | .down => (.y, false)

/-- xz_direction_y_rotated: iterate the north→west→south→east table. -/
def xz_direction_y_rotated (d : Direction) (quarter_turns : Nat) : Direction :=
  match quarter_turns with
  | 0 => d
  | n + 1 =>
    xz_direction_y_rotated
      (match d with
       | .north => .west
       | .west => .south
       | .south => .east
       | .east => .north
       | other => other)
      n

/-! # Region algebra (redhdl/voxel/region.py)

The three Region variants (PointRegion, RectangularPrism, CompositeRegion)
become one inductive type.  Only the operations used by the claims are
embedded: y_rotated, is_empty, the point semantics, and __bool__. -/

/-- The Region sum type: point-set, inclusive rectangular prism, composite. -/
inductive Region where
  | point (points : Finset Pos)
  | prism (min_pos max_pos : Pos)
  | composite (subregions : List Region)

/-- Region.y_rotated for each variant:
PointRegion rotates every point; RectangularPrism rotates both corners and
re-normalizes with elem_min/elem_max; CompositeRegion maps over subregions. -/
def Region.y_rotated (quarter_turns : Nat) : Region → Region
  | .point pts => .point (pts.image (Pos.y_rotated · quarter_turns))
  | .prism a b =>
      .prism (Pos.elem_min (a.y_rotated quarter_turns) (b.y_rotated quarter_turns))
             (Pos.elem_max (a.y_rotated quarter_turns) (b.y_rotated quarter_turns))
  | .composite subs =>
      .composite (subs.attach.map fun r => Region.y_rotated quarter_turns r.1)
decreasing_by
  have := List.sizeOf_lt_of_mem r.2
  simp only [Region.composite.sizeOf_spec]
  omega

/-- Region.is_empty for each variant: PointRegion has no points;
RectangularPrism has min_pos not componentwise ≤ max_pos; CompositeRegion
has all subregions empty. -/
def Region.is_empty : Region → Bool
  | .point pts => pts.card = 0
  | .prism a b => ¬ (Pos.le a b)
  | .composite subs => subs.attach.all fun r => r.1.is_empty
decreasing_by
  have := List.sizeOf_lt_of_mem r.2
  simp only [Region.composite.sizeOf_spec]
  omega

/-- Region.__bool__: the base class returns is_empty() for every variant. -/
def Region.bool (r : Region) : Bool := r.is_empty

/-- The set of points a region contains (the semantics of Region.__iter__):
the point set itself; all integer points between the inclusive prism
corners; the union over composite subregions. -/
def Region.region_points : Region → Finset Pos
  | .point pts => pts
  | .prism a b =>
      ((Finset.Icc a.x b.x) ×ˢ (Finset.Icc a.y b.y) ×ˢ (Finset.Icc a.z b.z)).image
        fun t => ⟨t.1, t.2.1, t.2.2⟩
  | .composite subs => subs.attach.foldr (fun r acc => r.1.region_points ∪ acc) ∅
decreasing_by
  have := List.sizeOf_lt_of_mem r.2
  simp only [Region.composite.sizeOf_spec]
  omega

/-- Direction rotation by 4 quarter turns is also needed for placements.

Modelled from the spec: the spec asserts Y-rotation-by-4 is the identity
"on any Placement"; the repository has no placement y_rotated function in
src/ (rotation of a placed instance is done inline via Pos.y_rotated and
xz_direction_y_rotated), so placement rotation is modelled from the spec's
data model: a placement maps instance ids to (Pos, Direction) pairs, and a
quarter-turn rotation rotates each pair. -/
def placement_y_rotated (quarter_turns : Nat)
    (placement : List (String × Pos × Direction)) :
    List (String × Pos × Direction) :=
  placement.map fun (id, p, d) =>
    (id, p.y_rotated quarter_turns, xz_direction_y_rotated d quarter_turns)

/-- Normalized regions: every rectangular prism (recursively) has
min_pos componentwise ≤ max_pos.  Point regions are always normalized. -/
def Region.normalized : Region → Prop
  | .point _ => True
  | .prism a b => Pos.le a b
  | .composite subs => ∀ r ∈ subs, Region.normalized r
decreasing_by
  rename_i h
  have := List.sizeOf_lt_of_mem h
  simp only [Region.composite.sizeOf_spec]
  omega

/-! # Naive bussing heuristics (redhdl/assembly/naive_bussing.py)

pin_pair_excessive_downwards_pct iterates over
source_dest_pin_pos_pairs(netlist, placement); only the source and dest pin
positions of each pair are read, so the function is embedded over the list
of (source_pin_pos, dest_pin_pos) pairs that source_dest_pin_pos_pairs
supplies.  Python float accumulation is modelled with Rat (the values are
exact small rationals). -/

/-- The per-pair increment of pin_pair_excessive_downwards_pct, including
the source's duplicated elif branch (both branches test the identical
condition, so the second is unreachable). -/
def excessive_downwards_increment (pair : Pos × Pos) : Rat :=
  let delta := pair.2 - pair.1
  let delta_horiz_dist := (Pos.abs delta).xz_pos.l1
  if delta.y < 0 ∧ delta_horiz_dist < |delta.y| then (1 : Rat) / 5
  else if delta.y < 0 ∧ delta_horiz_dist < |delta.y| then 1
  else 0

/-- pin_pair_excessive_downwards_pct: accumulate the increments and divide
by the number of pin pairs. -/
def pin_pair_excessive_downwards_pct (pairs : List (Pos × Pos)) : Rat :=
  (pairs.foldl (fun acc pair => acc + excessive_downwards_increment pair) 0)
    / (pairs.length : Rat)

/-- The quantity the spec describes ("fraction of pin pairs where dy < 0 and
horizontal_distance < |dy|"), stated from the spec's words for comparison
with the source function above. -/
def excessive_downwards_fraction_spec (pairs : List (Pos × Pos)) : Rat :=
  ((pairs.filter fun pair =>
      let delta := pair.2 - pair.1
      decide (delta.y < 0 ∧ (Pos.abs delta).xz_pos.l1 < |delta.y|)).length : Rat)
    / (pairs.length : Rat)

/-! # Simulated annealing (redhdl/search/local_search.py)

The LocalSearchProblem ABC's methods random_solution and mutated_solution
draw from the global RNG; they are modelled as deterministic functions of
the round index.  The acceptance test
random() < exp(-(candidate_cost / current_cost) * (4 i / total_rounds))
is likewise modelled by a Boolean oracle indexed by the round.  Costs are
Int (the repository's costs are integers).  Printing, the progress bar and
checkpointing are I/O side effects with no influence on the returned
solution and are omitted. -/

structure LocalSearchProblem (Sol : Type) where
  random_solution : Nat → Sol
  mutated_solution : Nat → Sol → Sol
  solution_cost : Sol → Int
  good_enough : Sol → Bool

/-- The loop state of sim_annealing_searched_solution: best/current
(solution, cost) pairs.  accepted_costs is a ghost trace recording the
candidate cost of every accepted candidate, in order; it does not influence
control flow. -/
structure SAState (Sol : Type) where
  best : Option (Sol × Int)
  current : Option (Sol × Int)
  accepted_costs : List Int

/-- Outcome of the annealing loop: an early good_enough return (with the
ghost accepted trace at that moment), normal completion, or a fired
assertion (current_solution None on a non-restart round; unreachable). -/
inductive SAOutcome (Sol : Type) where
  | early (sol : Sol) (accepted_costs : List Int)
  | finished (st : SAState Sol)
  | invalid

/-- One round i of the simulated annealing loop body. -/
def sa_round {Sol : Type} (P : LocalSearchProblem Sol) (accept_coin : Nat → Bool)
    (rounds_per_restart : Nat) (i : Nat) (st : SAState Sol) :
    Option (Sol ⊕ SAState Sol) :=
  let candidate? : Option Sol :=
    if i % rounds_per_restart = 0 then some (P.random_solution i)
    else match st.current with
      | some (cur, _) => some (P.mutated_solution i cur)
      | none => none
  match candidate? with
  | none => none
  | some candidate =>
    let candidate_cost := P.solution_cost candidate
    if P.good_enough candidate then some (Sum.inl candidate)
    else
      let accept := match st.current with
        | none => true
        | some (_, current_cost) => candidate_cost < current_cost || accept_coin i
      let st1 :=
        if accept then
          { st with current := some (candidate, candidate_cost),
                    accepted_costs := st.accepted_costs ++ [candidate_cost] }
        else st
      let st2 := match st1.best with
        | none => { st1 with best := some (candidate, candidate_cost) }
        | some (_, best_cost) =>
          if candidate_cost < best_cost then
            { st1 with best := some (candidate, candidate_cost) }
          else st1
      some (Sum.inr st2)

/-- The annealing loop over the remaining round indices. -/
def sa_loop {Sol : Type} (P : LocalSearchProblem Sol) (accept_coin : Nat → Bool)
    (rounds_per_restart : Nat) : List Nat → SAState Sol → SAOutcome Sol
  | [], st => .finished st
  | i :: rest, st =>
    match sa_round P accept_coin rounds_per_restart i st with
    | none => .invalid
    | some (.inl sol) => .early sol st.accepted_costs
    | some (.inr st') => sa_loop P accept_coin rounds_per_restart rest st'

/-- sim_annealing_searched_solution.  none models the Python exceptions:
ValueError for total_rounds <= 0, the ZeroDivisionError of i %
rounds_per_restart when total_rounds // restarts = 0, and the final
assertion that best_solution is not None. -/
def sim_annealing_searched_solution {Sol : Type} (P : LocalSearchProblem Sol)
    (accept_coin : Nat → Bool) (total_rounds restarts : Nat) : Option Sol :=
  if total_rounds = 0 then none
  else
    let rounds_per_restart := total_rounds / restarts
    if rounds_per_restart = 0 then none
    else
      match sa_loop P accept_coin rounds_per_restart (List.range total_rounds)
          ⟨none, none, []⟩ with
      | .early sol _ => some sol
      | .finished st => st.best.map (·.1)
      | .invalid => none

/-- The ghost trace of accepted candidate costs of a full run. -/
def sa_run_accepted_costs {Sol : Type} (P : LocalSearchProblem Sol)
    (accept_coin : Nat → Bool) (total_rounds restarts : Nat) : List Int :=
  if total_rounds = 0 then []
  else
    let rounds_per_restart := total_rounds / restarts
    if rounds_per_restart = 0 then []
    else
      match sa_loop P accept_coin rounds_per_restart (List.range total_rounds)
          ⟨none, none, []⟩ with
      | .early _ acc => acc
      | .finished st => st.accepted_costs
      | .invalid => []

/-! # A* path search framework (redhdl/search/path_search.py)

The PathSearchProblem ABC becomes a structure of functions.  Costs are Int:
every cost in this repository is an integer.  Python's sorted() over
actions (called in Step.next_steps) is modelled with mergeSort over an
action_le comparator supplied by the problem.  The heap of
a_star_bfs_searched_solution is a faithful model of CPython's heapq
(heappush, heappop, _siftdown, _siftup), which only ever compares items
with the < of Step, i.e. Step.__lt__. -/

structure SearchProblem (σ α : Type) where
  initial_state : σ
  state_actions : σ → List α
  state_action_result : σ → α → σ
  state_action_cost : σ → α → Int
  is_goal_state : σ → Bool
  min_cost : σ → Int
  action_le : α → α → Bool

/-- The Step dataclass: parent pointer, action (None for the root), state,
cumulative cost, and priority min_cost = cost + heuristic. -/
inductive PStep (σ α : Type) where
  | mk (parent : Option (PStep σ α)) (action : Option α) (state : σ)
       (cost : Int) (min_cost : Int)

def PStep.parent {σ α : Type} : PStep σ α → Option (PStep σ α)
  | .mk p _ _ _ _ => p

def PStep.action {σ α : Type} : PStep σ α → Option α
  | .mk _ a _ _ _ => a

def PStep.state {σ α : Type} : PStep σ α → σ
  | .mk _ _ s _ _ => s

def PStep.cost {σ α : Type} : PStep σ α → Int
  | .mk _ _ _ c _ => c

def PStep.min_cost {σ α : Type} : PStep σ α → Int
  | .mk _ _ _ _ m => m

/-- Step.__lt__: comparison is by min_cost alone. -/
def PStep.lt {σ α : Type} (a b : PStep σ α) : Bool := a.min_cost < b.min_cost

/-- Step.action_sequence: walk the parent chain, reverse, and drop the
root's None action (the source's [1:]).  Non-root steps built by
next_steps always carry some action. -/
def PStep.action_sequence {σ α : Type} : PStep σ α → List α
  | .mk parent action _ _ _ =>
    match parent with
    | none => []
    | some p => p.action_sequence ++ action.toList

/-- Step.initial_step. -/
def PStep.initial_step {σ α : Type} (state : σ) : PStep σ α :=
  .mk none none state 0 0

/-- Step.next_steps: one successor step per action, in sorted action
order. -/
def PStep.next_steps {σ α : Type} (P : SearchProblem σ α) (s : PStep σ α) :
    List (PStep σ α) :=
  ((P.state_actions s.state).mergeSort P.action_le).map fun a =>
    let next_state := P.state_action_result s.state a
    let next_cost := s.cost + P.state_action_cost s.state a
    .mk (some s) (some a) next_state next_cost (next_cost + P.min_cost next_state)

/-! CPython heapq, using only the < comparison (heapq's own usage). -/

/-- heapq._siftdown: move newitem towards the root while it compares
strictly below its parent. -/
def heap_siftdown {τ : Type} (lt : τ → τ → Bool) (newitem : τ) (heap : List τ)
    (startpos pos : Nat) : List τ :=
  if _h : startpos < pos then
    let parentpos := (pos - 1) / 2
    match heap.get? parentpos with
    | some parent =>
      if lt newitem parent then
        heap_siftdown lt newitem (heap.set pos parent) startpos parentpos
      else heap.set pos newitem
    | none => heap.set pos newitem
  else heap.set pos newitem
termination_by pos
decreasing_by omega

/-- heapq._siftup: walk a smaller-child path down to a leaf, then sift the
item back down towards the root. -/
def heap_siftup {τ : Type} (lt : τ → τ → Bool) (newitem : τ) (heap : List τ)
    (startpos pos : Nat) : List τ :=
  if _h : 2 * pos + 1 < heap.length then
    if _h2 : 2 * pos + 2 < heap.length ∧
        ¬ lt (heap.getD (2 * pos + 1) newitem) (heap.getD (2 * pos + 2) newitem) then
      heap_siftup lt newitem
        (heap.set pos (heap.getD (2 * pos + 2) newitem)) startpos (2 * pos + 2)
    else
      heap_siftup lt newitem
        (heap.set pos (heap.getD (2 * pos + 1) newitem)) startpos (2 * pos + 1)
  else
    heap_siftdown lt newitem (heap.set pos newitem) startpos pos
termination_by heap.length - pos
decreasing_by
  all_goals simp only [List.length_set]
  all_goals omega

/-- heapq.heappush: append, then sift the new item down towards the root. -/
def heappush {τ : Type} (lt : τ → τ → Bool) (heap : List τ) (item : τ) : List τ :=
  heap_siftdown lt item (heap ++ [item]) 0 heap.length

/-- heapq.heappop: pop the last element; if items remain, replace the root
with it and sift up.  Returns none on an empty heap (Python raises). -/
def heappop {τ : Type} (lt : τ → τ → Bool) : List τ → Option (τ × List τ)
  | [] => none
  | x :: xs =>
    let lastelt := (x :: xs).getLast (by simp)
    match (x :: xs).dropLast with
    | [] => some (x, ([] : List τ))
    | r :: rtail =>
      some (r, heap_siftup lt lastelt ((r :: rtail).set 0 lastelt) 0 0)

/-- The search failure kinds of path_search.py. -/
inductive SearchErr where
  | timeout
  | noSolution
deriving DecidableEq, Repr

/-- The while loop of a_star_bfs_searched_solution.  Pop the best step; skip
it if its state is already explored; return its action sequence at a goal;
otherwise mark explored, push its successors and count one expansion.
On exit, a non-empty frontier means the step budget ran out
(SearchTimeoutError) and an empty frontier means exhaustion
(NoSolutionError). -/
def a_star_bfs_loop {σ α : Type} [DecidableEq σ] (P : SearchProblem σ α)
    (heap : List (PStep σ α)) (explored : List σ) (remaining : Nat) :
    Except SearchErr (List α) :=
  match _hne : heap with
  | [] => .error .noSolution
  | _hd :: _tl =>
    if _hr : remaining = 0 then .error .timeout
    else
      match _hp : heappop PStep.lt heap with
      | none => .error .noSolution
      | some (step, heap2) =>
        if step.state ∈ explored then
          a_star_bfs_loop P heap2 explored remaining
        else if P.is_goal_state step.state then .ok step.action_sequence
        else
          a_star_bfs_loop P ((step.next_steps P).foldl (heappush PStep.lt) heap2)
            (step.state :: explored) (remaining - 1)
termination_by (remaining, heap.length)
decreasing_by
  · have hsd_len : ∀ (ni : PStep σ α) (h : List (PStep σ α)) (s p : Nat),
        (heap_siftdown PStep.lt ni h s p).length = h.length := by
      intro ni h s p
      induction h, s, p using heap_siftdown.induct PStep.lt ni with
      | _ =>
        unfold heap_siftdown
        split <;>
          simp_all [List.length_set, List.get?_eq_getElem?, List.getElem?_eq_none]
    have hsu_len : ∀ (ni : PStep σ α) (h : List (PStep σ α)) (s p : Nat),
        (heap_siftup PStep.lt ni h s p).length = h.length := by
      intro ni h s p
      induction h, s, p using heap_siftup.induct PStep.lt ni with
      | _ =>
        unfold heap_siftup
        split <;> simp_all [List.length_set, hsd_len]
    have hlen : heap2.length < (_hd :: _tl).length := by
      rw [_hne] at _hp
      rw [heappop] at _hp
      rcases hdl : (_hd :: _tl).dropLast with _ | ⟨r, rtail⟩ <;> rw [hdl] at _hp <;>
        simp only [Option.some.injEq, Prod.mk.injEq] at _hp
      · rw [← _hp.2]
        simp
      · have hlen2 := congrArg List.length hdl
        simp only [List.length_dropLast, List.length_cons] at hlen2
        rw [← _hp.2, hsu_len]
        simp only [List.length_set, List.length_cons]
        omega
    exact Prod.Lex.right remaining hlen
  · exact Prod.Lex.left _ _ (by omega)

/-- a_star_bfs_searched_solution: run the loop from the initial step. -/
def a_star_bfs_searched_solution {σ α : Type} [DecidableEq σ]
    (P : SearchProblem σ α) (max_steps : Nat) : Except SearchErr (List α) :=
  a_star_bfs_loop P [PStep.initial_step P.initial_state] [] max_steps

/-- Observer for the BFS loop: the sequence of states actually expanded
(popped and not skipped as already explored), in order.  Same recursion as
a_star_bfs_loop; used to state facts about the expansion order. -/
def a_star_bfs_expansions {σ α : Type} [DecidableEq σ] (P : SearchProblem σ α)
    (heap : List (PStep σ α)) (explored : List σ) (remaining : Nat) : List σ :=
  match _hne : heap with
  | [] => []
  | _hd :: _tl =>
    if _hr : remaining = 0 then []
    else
      match _hp : heappop PStep.lt heap with
      | none => []
      | some (step, heap2) =>
        if step.state ∈ explored then
          a_star_bfs_expansions P heap2 explored remaining
        else if P.is_goal_state step.state then [step.state]
        else
          step.state ::
            a_star_bfs_expansions P
              ((step.next_steps P).foldl (heappush PStep.lt) heap2)
              (step.state :: explored) (remaining - 1)
termination_by (remaining, heap.length)
decreasing_by
  · have hsd_len : ∀ (ni : PStep σ α) (h : List (PStep σ α)) (s p : Nat),
        (heap_siftdown PStep.lt ni h s p).length = h.length := by
      intro ni h s p
      induction h, s, p using heap_siftdown.induct PStep.lt ni with
      | _ =>
        unfold heap_siftdown
        split <;>
          simp_all [List.length_set, List.get?_eq_getElem?, List.getElem?_eq_none]
    have hsu_len : ∀ (ni : PStep σ α) (h : List (PStep σ α)) (s p : Nat),
        (heap_siftup PStep.lt ni h s p).length = h.length := by
      intro ni h s p
      induction h, s, p using heap_siftup.induct PStep.lt ni with
      | _ =>
        unfold heap_siftup
        split <;> simp_all [List.length_set, hsd_len]
    have hlen : heap2.length < (_hd :: _tl).length := by
      rw [_hne] at _hp
      rw [heappop] at _hp
      rcases hdl : (_hd :: _tl).dropLast with _ | ⟨r, rtail⟩ <;> rw [hdl] at _hp <;>
        simp only [Option.some.injEq, Prod.mk.injEq] at _hp
      · rw [← _hp.2]
        simp
      · have hlen2 := congrArg List.length hdl
        simp only [List.length_dropLast, List.length_cons] at hlen2
        rw [← _hp.2, hsu_len]
        simp only [List.length_set, List.length_cons]
        omega
    exact Prod.Lex.right remaining hlen
  · exact Prod.Lex.left _ _ (by omega)

/-! IDDFS: a_star_iddfs_searched_solution's inner recursion
subtree_solution_should_continue.  The nonlocal state_min_cost dict and
steps_remaining counter are threaded explicitly; SearchTimeoutError becomes
an Except error.  The dict is an association list where the most recent
binding is found first.  fuel is a structural recursion depth bound, an
artifact of the embedding: the source bounds the recursion depth through
steps_remaining itself (each nesting level consumes one step before
recursing), so any fuel larger than steps_remaining behaves identically. -/

/-- Python dict get. -/
def dict_get {σ : Type} [DecidableEq σ] (m : List (σ × Int)) (k : σ) : Option Int :=
  (m.find? fun e => decide (e.1 = k)).map (·.2)

/-- Python dict item assignment (newest binding shadows older ones). -/
def dict_set {σ : Type} (m : List (σ × Int)) (k : σ) (v : Int) : List (σ × Int) :=
  (k, v) :: m

/-- min over float-or-inf values, with none as inf. -/
def option_min : Option Int → Option Int → Option Int
  | none, b => b
  | some a, none => some a
  | some a, some b => some (min a b)

/-- Return value of subtree_solution_should_continue plus the threaded
nonlocals: (solution, should_continue, the least over-cap min_cost seen),
then the state_min_cost dict and the remaining step budget. -/
structure IddfsRet (σ α : Type) where
  solution : Option (PStep σ α)
  should_continue : Bool
  least_min_cost : Option Int
  state_min_cost : List (σ × Int)
  steps_remaining : Nat

mutual

/-- subtree_solution_should_continue: prune when the cumulative cost is
strictly worse than the best recorded for this state; record the cost;
stop at the cost cap; return at a goal; otherwise charge one step from the
budget (SearchTimeoutError at zero) and recurse over the successors. -/
def subtree_solution_should_continue {σ α : Type} [DecidableEq σ]
    (P : SearchProblem σ α) (fuel : Nat) (max_cost : Int)
    (m : List (σ × Int)) (remaining : Nat) (step : PStep σ α) :
    Except SearchErr (IddfsRet σ α) :=
  match fuel with
  | 0 => .error .timeout
  | fuel' + 1 =>
    let pruned : Bool :=
      match dict_get m step.state with
      | some prev_min_cost => step.cost > prev_min_cost
      | none => false
    if pruned then
      .ok ⟨none, false, none, m, remaining⟩
    else
      let m2 := dict_set m step.state step.cost
      if step.min_cost > max_cost then .ok ⟨none, true, some step.min_cost, m2, remaining⟩
      else if P.is_goal_state step.state then .ok ⟨some step, false, none, m2, remaining⟩
      else if remaining = 0 then .error .timeout
      else
        subtree_children P fuel' max_cost (step.next_steps P) m2 (remaining - 1)
          false none
termination_by (fuel, 0)
decreasing_by
  exact Prod.Lex.left _ _ (by omega)

/-- The for-loop over next_steps inside subtree_solution_should_continue:
return the first solution found, otherwise accumulate should_continue and
the least over-cap min_cost. -/
def subtree_children {σ α : Type} [DecidableEq σ]
    (P : SearchProblem σ α) (fuel : Nat) (max_cost : Int)
    (children : List (PStep σ α)) (m : List (σ × Int)) (remaining : Nat)
    (any_continue : Bool) (least : Option Int) :
    Except SearchErr (IddfsRet σ α) :=
  match children with
  | [] => .ok ⟨none, any_continue, least, m, remaining⟩
  | c :: cs =>
    match subtree_solution_should_continue P fuel max_cost m remaining c with
    | .error e => .error e
    | .ok r =>
      match r.solution with
      | some s => .ok ⟨some s, false, none, r.state_min_cost, r.steps_remaining⟩
      | none =>
        subtree_children P fuel max_cost cs r.state_min_cost r.steps_remaining
          (any_continue || r.should_continue) (option_min least r.least_min_cost)
termination_by (fuel, children.length + 1)
decreasing_by
  · exact Prod.Lex.right _ (by simp)
  · exact Prod.Lex.right _ (by simp)

end

/-! # Redstone wire router (redhdl/bussing/redstone_bussing.py) -/

/-- SignalStrength: an integer (0..15 in the type annotation) or the
"repeater" sentinel.  The integer case is Int because Python does not
enforce the Literal bounds at runtime. -/
inductive SigStrength where
  | strength (n : Int)
  | repeater
deriving DecidableEq, Repr

/-- RedstonePathStep: the action type of the router search. -/
structure RedstonePathStep where
  next_pos : Pos
  is_repeater : Bool
  facing : Option Direction
deriving DecidableEq, Repr

/-- RedstonePathStep.is_wire. -/
def RedstonePathStep.is_wire (s : RedstonePathStep) : Bool := !s.is_repeater

/-- RedstonePathStep.next_steps: candidate wire steps (one XZ unit, any of
the four directions since the source's is-repeater-is-not-None guard is
always true, elevation -1/0/+1, no descent on a transparent foundation)
followed by candidate repeater steps (one XZ unit, flat or one down, down
only when the current foundation is soft-powered, i.e. the current element
is a wire on a solid foundation). -/
def RedstonePathStep.next_steps (self : RedstonePathStep)
    (transparent_foundation : Bool) : List RedstonePathStep :=
  let foundation_soft_powered := !(self.is_repeater || transparent_foundation)
  let place_repeater_steps :=
    xz_directions.flatMap fun xz_direction =>
      ([true, false].filter fun step_down =>
          foundation_soft_powered || !step_down).map fun step_down =>
        { next_pos := self.next_pos + direction_unit_pos xz_direction +
            (if step_down then direction_unit_pos .down else zero_pos)
          is_repeater := true
          facing := some xz_direction }
  let place_wire_steps :=
    ([Direction.north, .south, .east, .west]).flatMap fun xz_direction =>
      (([-1, 0, 1] : List Int).filter fun elev_change =>
          !transparent_foundation || elev_change ≠ -1).map fun elev_change =>
        { next_pos := self.next_pos + direction_unit_pos xz_direction +
            Pos.mk 0 elev_change 0
          is_repeater := false
          facing := none }
  place_wire_steps ++ place_repeater_steps

/-- frozendict built from a pair list: lookup returns the last binding. -/
def fd_lookup {β : Type} (l : List (Pos × β)) (p : Pos) : Option β :=
  (l.reverse.find? fun e => decide (e.1 = p)).map (·.2)

/-- The key set of a frozendict built from a pair list. -/
def fd_keys {β : Type} (l : List (Pos × β)) : Finset Pos :=
  (l.map (·.1)).toFinset

/-- Image of a frozendict under a (key, value) function, e.g.
"x + unit[dir] for x, dir in mapping.items()". -/
def fd_image {β : Type} (l : List (Pos × β)) (f : Pos → β → Pos) : Finset Pos :=
  (fd_keys l).biUnion fun k =>
    match fd_lookup l k with
    | some v => {f k v}
    | none => ∅

/-- RedstoneBussing: the WirePath structure.  The two frozendicts are
association lists (last binding wins), the two frozensets are Finsets. -/
structure RedstoneBussing where
  element_sig_strengths : List (Pos × SigStrength) := []
  repeater_directions : List (Pos × Direction) := []
  spacer_blocks : Finset Pos := ∅
  airspace_blocks : Finset Pos := ∅
deriving DecidableEq

/-- element_blocks: keys of element_sig_strengths. -/
def RedstoneBussing.element_blocks (b : RedstoneBussing) : Finset Pos :=
  fd_keys b.element_sig_strengths

/-- foundation_blocks: one below each element. -/
def RedstoneBussing.foundation_blocks (b : RedstoneBussing) : Finset Pos :=
  b.element_blocks.image (· + direction_unit_pos .down)

/-- transparent_foundation_blocks. -/
def RedstoneBussing.transparent_foundation_blocks (b : RedstoneBussing)
    (other_bus_airspace_blocks : Finset Pos) : Finset Pos :=
  b.foundation_blocks ∩ (other_bus_airspace_blocks ∪ b.airspace_blocks)

/-- repeater_blocks: keys of repeater_directions. -/
def RedstoneBussing.repeater_blocks (b : RedstoneBussing) : Finset Pos :=
  fd_keys b.repeater_directions

/-- wire_blocks: elements that are not repeaters. -/
def RedstoneBussing.wire_blocks (b : RedstoneBussing) : Finset Pos :=
  b.element_blocks \ b.repeater_blocks

/-- element_foundation_blocks. -/
def RedstoneBussing.element_foundation_blocks (b : RedstoneBussing) : Finset Pos :=
  b.element_blocks ∪ b.foundation_blocks

/-- soft_power_sensitive_blocks: the input block behind each repeater. -/
def RedstoneBussing.soft_power_sensitive_blocks (b : RedstoneBussing) : Finset Pos :=
  fd_image b.repeater_directions fun p d => p - direction_unit_pos d

/-- hard_power_sensitive_blocks. -/
def RedstoneBussing.hard_power_sensitive_blocks (b : RedstoneBussing) : Finset Pos :=
  b.soft_power_sensitive_blocks ∪ b.wire_blocks ∪
    b.wire_blocks.biUnion fun w =>
      (directions.map fun d => w + direction_unit_pos d).toFinset

/-- hard_powered_blocks: the output block in front of each repeater. -/
def RedstoneBussing.hard_powered_blocks (b : RedstoneBussing) : Finset Pos :=
  fd_image b.repeater_directions fun p d => p + direction_unit_pos d

/-- wire_possible_directions. -/
def RedstoneBussing.wire_possible_directions (b : RedstoneBussing)
    (wire_block : Pos) : List Direction :=
  let directions_with_wire := xz_directions.filter fun direction =>
    [direction_unit_pos .down, zero_pos, direction_unit_pos .up].any
      fun vert_adjustment =>
        decide ((wire_block + direction_unit_pos direction + vert_adjustment)
          ∈ b.wire_blocks)
  match directions_with_wire with
  | [] => xz_directions
  | [direction] => [direction, opposite_direction direction]
  | other => other

/-- soft_powered_blocks. -/
def RedstoneBussing.soft_powered_blocks (b : RedstoneBussing) : Finset Pos :=
  b.hard_powered_blocks ∪ b.foundation_blocks ∪
    b.wire_blocks.biUnion fun w =>
      ((b.wire_possible_directions w).map fun d => w + direction_unit_pos d).toFinset

/-- step_from_pos: reconstruct the step that placed the element at pos. -/
def RedstoneBussing.step_from_pos (b : RedstoneBussing) (pos : Pos) :
    RedstonePathStep :=
  { next_pos := pos
    is_repeater := decide (pos ∈ b.repeater_blocks)
    facing := fd_lookup b.repeater_directions pos }

/-- RedstoneBussing.add_step: extend the partial bus by one element at
step.next_pos, or return none when any of the COLLISION, CONNECTIVITY or
NOISE assertions fails.  The checks appear in source order.  The source
raises KeyError when prev_pos has no recorded signal strength and asserts
facing is not None for repeater steps; both are modelled as none. -/
def RedstoneBussing.add_step (self : RedstoneBussing) (other_buses : RedstoneBussing)
    (instance_points : Finset Pos) (prev_pos end_pos : Pos)
    (step : RedstonePathStep) : Option RedstoneBussing :=
  let xz_neighbor_blocks := xz_directions.map fun d =>
    step.next_pos + direction_unit_pos d
  let neighbor_blocks := directions.map fun d => step.next_pos + direction_unit_pos d
  let above_block := step.next_pos + direction_unit_pos .up
  let below_block := step.next_pos + direction_unit_pos .down
  let prev_was_repeater := decide (prev_pos ∈ self.repeater_blocks)
  let at_end_pos := decide (step.next_pos = end_pos)
  -- [COLLISION 1]
  let placement_blocks : Finset Pos := {step.next_pos, below_block}
  let preexisting_placement_blocks :=
    other_buses.element_blocks ∪ other_buses.element_foundation_blocks ∪
      self.element_blocks ∪ self.element_foundation_blocks ∪ instance_points
  if !at_end_pos && decide ((placement_blocks ∩ preexisting_placement_blocks) ≠ ∅) then none
  else
    -- [INPUT NOISE 1 part 1] / [INPUT NOISE 2] / [OUTPUT NOISE 1]
    let any_adjacent_wires := xz_neighbor_blocks.any fun xz_neighbor =>
      ([-1, 0, 1] : List Int).any fun dy =>
        let neighbor := xz_neighbor + Pos.mk 0 dy 0
        decide (neighbor ∈ other_buses.wire_blocks) &&
          (decide (dy ≠ -1) ||
            decide ((neighbor + Pos.mk 0 1 0) ∉ other_buses.spacer_blocks)) &&
          (decide (dy ≠ 1) ||
            decide ((step.next_pos + Pos.mk 0 1 0) ∉ other_buses.spacer_blocks))
    let any_adjacent_hard_powered_blocks := neighbor_blocks.any fun neighbor =>
      decide (neighbor ∈ other_buses.hard_powered_blocks)
    let any_adjacent_soft_power_sensitive_blocks :=
      (xz_neighbor_blocks.any fun neighbor =>
        decide (neighbor ∈ other_buses.soft_power_sensitive_blocks)) ||
      decide (below_block ∈ other_buses.soft_power_sensitive_blocks)
    if step.is_wire &&
        (any_adjacent_wires || any_adjacent_hard_powered_blocks ||
          any_adjacent_soft_power_sensitive_blocks) then none
    else
      -- [INPUT NOISE 3] / [OUTPUT NOISE 2] and the repeater facing assert
      let continue_from : SigStrength → List (Pos × Direction) →
          Option RedstoneBussing := fun next_sig_strength repeater_directions =>
        -- [CONNECTIVITY 1]
        if next_sig_strength = .strength 0 then none
        else
          -- [CONNECTIVITY 2] and [INPUT NOISE 1 part 2]
          let new_spacer_blocks : Finset Pos :=
            (if prev_was_repeater && decide (step.next_pos.y < prev_pos.y) then
              {step.next_pos + direction_unit_pos .up} else ∅) ∪
            (if step.is_wire then
              (if xz_neighbor_blocks.any fun neighbor =>
                  decide ((neighbor + direction_unit_pos .up) ∈ other_buses.wire_blocks)
                then {step.next_pos + direction_unit_pos .up} else ∅) ∪
              (xz_neighbor_blocks.filter fun neighbor_block =>
                (neighbor_block + direction_unit_pos .down) ∈
                  other_buses.wire_blocks).toFinset
            else ∅)
          let spacer_blocks := self.spacer_blocks ∪ new_spacer_blocks
          -- [CONNECTIVITY 3]
          let new_airspace_blocks : Finset Pos :=
            (if decide (step.next_pos.y < prev_pos.y) then {above_block} else ∅) ∪
            (if decide (step.next_pos.y > prev_pos.y) then
              {prev_pos + direction_unit_pos .up} else ∅)
          let airspace_blocks := self.airspace_blocks ∪ new_airspace_blocks
          -- [COLLISION 2]
          if decide ((airspace_blocks ∩ spacer_blocks) ≠ ∅) then none
          -- [COLLISION 3]
          else if decide (((other_buses.foundation_blocks ∪ other_buses.spacer_blocks) ∩
              (new_airspace_blocks \ other_buses.airspace_blocks)) ≠ ∅) then none
          else some
            { element_sig_strengths :=
                self.element_sig_strengths ++ [(step.next_pos, next_sig_strength)]
              repeater_directions := repeater_directions
              spacer_blocks := spacer_blocks
              airspace_blocks := airspace_blocks }
      if step.is_repeater then
        match step.facing with
        | none => none
        | some facing =>
          let has_noisy_input :=
            decide ((step.next_pos + direction_unit_pos (opposite_direction facing))
              ∈ other_buses.soft_powered_blocks)
          let output_affects_others :=
            decide ((step.next_pos + direction_unit_pos facing)
              ∈ other_buses.hard_power_sensitive_blocks)
          if has_noisy_input || output_affects_others then none
          else continue_from .repeater
            (self.repeater_directions ++ [(step.next_pos, facing)])
      else
        match fd_lookup self.element_sig_strengths prev_pos with
        | none => none
        | some prev_sig_strength =>
          continue_from
            (match prev_sig_strength with
             | .repeater => .strength 15
             | .strength n => .strength (n - 1))
            self.repeater_directions

/-- with_truncated_history: keep only the strengths at the current and
previous voxels, and repeater/spacer/airspace data at the current voxel.
The source's max_blocks_away parameter is accepted and, as in the source
body, unused. -/
def RedstoneBussing.with_truncated_history (b : RedstoneBussing)
    (current_pos previous_pos : Pos) (_max_blocks_away : Nat := 1) :
    RedstoneBussing :=
  { element_sig_strengths := b.element_sig_strengths.filter fun e =>
      decide (e.1 = current_pos) || decide (e.1 = previous_pos)
    repeater_directions := b.repeater_directions.filter fun e =>
      decide (current_pos = e.1)
    spacer_blocks := b.spacer_blocks.filter fun pos => current_pos = pos
    airspace_blocks := b.airspace_blocks.filter fun pos => current_pos = pos }

/-- BusYDirection. -/
inductive BusYDirection where
  | straight_up
  | slant_up
  | any_up
  | flat
  | slant_down
deriving DecidableEq, Repr

/-- momentum_expected_step_poses: the expected next displacement set given
(XZ momentum, Y momentum, is_repeater). -/
def momentum_expected_step_poses (xz : Option Direction)
    (y : Option BusYDirection) (is_repeater : Bool) : Finset Pos :=
  match xz, y with
  | some d, none =>
      {direction_unit_pos d + Pos.mk 0 1 0, direction_unit_pos d + Pos.mk 0 0 0,
       direction_unit_pos d + Pos.mk 0 (-1) 0}
  | some d, some .any_up =>
      {direction_unit_pos (opposite_direction d) + Pos.mk 0 1 0,
       direction_unit_pos d + Pos.mk 0 1 0} ∪
        (if is_repeater then {direction_unit_pos d} else ∅)
  | some d, some .straight_up =>
      {direction_unit_pos (opposite_direction d) + Pos.mk 0 1 0} ∪
        (if is_repeater then {direction_unit_pos d} else ∅)
  | some d, some .slant_up =>
      {direction_unit_pos d + Pos.mk 0 1 0} ∪
        (if is_repeater then {direction_unit_pos d} else ∅)
  | some d, some .flat => {direction_unit_pos d}
  | some d, some .slant_down => {direction_unit_pos d + Pos.mk 0 (-1) 0}
  | none, some ydir =>
      let y_offset : Pos :=
        match ydir with
        | .any_up => ⟨0, 1, 0⟩
        | .straight_up => ⟨0, 1, 0⟩
        | .slant_up => ⟨0, 1, 0⟩
        | .flat => ⟨0, 0, 0⟩
        | .slant_down => ⟨0, -1, 0⟩
      (xz_directions.map fun d => y_offset + direction_unit_pos d).toFinset ∪
        (if is_repeater then (xz_directions.map direction_unit_pos).toFinset else ∅)
  | none, none =>
      (xz_directions.flatMap fun d =>
        ([Pos.mk 0 (-1) 0, Pos.mk 0 0 0, Pos.mk 0 1 0]).map fun y_offset =>
          y_offset + direction_unit_pos d).toFinset

/-- unit_pos_direction: inverse of the direction_unit_pos table (a dict
lookup in the source; none models its KeyError). -/
def unit_pos_direction (p : Pos) : Option Direction :=
  directions.find? fun d => decide (direction_unit_pos d = p)

/-- PartialBus: the router search state. -/
structure PartialBus where
  current_position : Pos
  current_bussing : RedstoneBussing
  momentum_xz_dir : Option Direction
  momentum_y_dir : Option BusYDirection
deriving DecidableEq

/-- _next_momentum_xy_z_and_momentum_broken.  none models the source's
KeyError on a displacement that is not one XZ unit with dy in -1..1; the
search only ever applies such displacements. -/
def next_momentum_and_broken (state : PartialBus) (action : RedstonePathStep) :
    Option (Direction × Option BusYDirection × Bool) :=
  let step := action.next_pos - state.current_position
  match unit_pos_direction step.xz_pos with
  | none => none
  | some step_xz_dir =>
    let step_y_dir? : Option BusYDirection :=
      if step.y = 1 then some .any_up
      else if step.y = 0 then some .flat
      else if step.y = -1 then some .slant_down
      else none
    match step_y_dir? with
    | none => none
    | some step_y_dir =>
      let momentum_broken :=
        decide (step ∉ momentum_expected_step_poses state.momentum_xz_dir
          state.momentum_y_dir action.is_repeater)
      let momentum_y_dir : Option BusYDirection :=
        if momentum_broken then some step_y_dir
        else if step_y_dir = .any_up then
          match state.momentum_y_dir with
          | some ym =>
            if ym ≠ .any_up then some ym
            else match state.momentum_xz_dir with
              | none => some .any_up
              | some mxz =>
                if mxz = step_xz_dir then some .slant_up else some .straight_up
          | none =>
            match state.momentum_xz_dir with
            | none => some .any_up
            | some mxz =>
              if mxz = step_xz_dir then some .slant_up else some .straight_up
        else if action.is_repeater then state.momentum_y_dir
        else some step_y_dir
      some (step_xz_dir, momentum_y_dir, momentum_broken)

/-- RedstonePathFindingProblem, with the source's default costs and
history limit. -/
structure RedstonePathFindingProblem where
  start_pos : Pos
  end_pos : Pos
  start_xz_dir : Option Direction
  end_xz_dir : Option Direction
  instance_points : Finset Pos
  other_buses : RedstoneBussing
  early_repeater_cost : Int := 12
  momentum_break_cost : Int := 3
  history_limit : Option Nat := none

/-- RedstonePathFindingProblem.initial_state: the start voxel carries
signal strength 15 and the start-hint XZ momentum. -/
def RedstonePathFindingProblem.initial_state (P : RedstonePathFindingProblem) :
    PartialBus :=
  { current_position := P.start_pos
    current_bussing := { element_sig_strengths := [(P.start_pos, .strength 15)] }
    momentum_xz_dir := P.start_xz_dir
    momentum_y_dir := none }

/-- RedstonePathFindingProblem.state_actions (the state type is
PartialBus | None; None is a dead end with no actions). -/
def RedstonePathFindingProblem.state_actions (P : RedstonePathFindingProblem) :
    Option PartialBus → List RedstonePathStep
  | none => []
  | some state =>
    (state.current_bussing.step_from_pos state.current_position).next_steps
      (decide (state.current_position ∈
        state.current_bussing.transparent_foundation_blocks
          P.other_buses.airspace_blocks))

/-- RedstonePathFindingProblem.state_action_result: momentum update plus
add_step, with history truncation when a history limit is set. -/
def RedstonePathFindingProblem.state_action_result (P : RedstonePathFindingProblem) :
    Option PartialBus → RedstonePathStep → Option PartialBus
  | none, _ => none
  | some state, action =>
    match next_momentum_and_broken state action with
    | none => none
    | some (momentum_xz_dir, momentum_y_dir, _) =>
      match state.current_bussing.add_step P.other_buses P.instance_points
          state.current_position P.end_pos action with
      | none => none
      | some next_bussing =>
        let next_bussing :=
          match P.history_limit with
          | some _ =>
            next_bussing.with_truncated_history action.next_pos
              state.current_position
          | none => next_bussing
        some
          { current_position := action.next_pos
            current_bussing := next_bussing
            momentum_xz_dir := some momentum_xz_dir
            momentum_y_dir := momentum_y_dir }

/-- RedstonePathFindingProblem.state_action_cost: one per step, plus the
early-repeater penalty, plus the momentum-break penalty (also charged when
the end voxel is entered against the end facing hint). -/
def RedstonePathFindingProblem.state_action_cost (P : RedstonePathFindingProblem) :
    Option PartialBus → RedstonePathStep → Int
  | none, _ => 0
  | some state, action =>
    let early :=
      if action.is_repeater then
        match fd_lookup state.current_bussing.element_sig_strengths
            state.current_position with
        | some .repeater => P.early_repeater_cost
        | some (.strength n) => if n > 1 then P.early_repeater_cost else 0
        | none => 0
      else 0
    match next_momentum_and_broken state action with
    | none => 1 + early
    | some (momentum_xz_dir, _, momentum_broken) =>
      let momentum_didnt_match_at_end_pos :=
        decide (action.next_pos = P.end_pos) && decide (P.end_xz_dir ≠ none) &&
          decide (P.end_xz_dir ≠ some momentum_xz_dir)
      1 + early +
        (if momentum_broken || momentum_didnt_match_at_end_pos then
          P.momentum_break_cost else 0)

/-- RedstonePathFindingProblem.is_goal_state: at the end voxel, and the end
voxel is not a repeater. -/
def RedstonePathFindingProblem.is_goal_state (P : RedstonePathFindingProblem) :
    Option PartialBus → Bool
  | none => false
  | some state =>
    decide (state.current_position = P.end_pos) &&
      decide (state.current_position ∉ state.current_bussing.repeater_blocks)

/-- _min_xz_turns. -/
def min_xz_turns (distance_vector : Pos) (start_xz_momentum end_xz_momentum :
    Option Direction) : Int :=
  if distance_vector.xz_pos = zero_pos then 0
  else if distance_vector.x = 0 ∨ distance_vector.z = 0 then
    let axis_is_pos : Axis × Bool :=
      if distance_vector.x ≠ 0 then (.x, distance_vector.x > 0)
      else (.z, distance_vector.z > 0)
    let required_direction := direction_by_axis_is_pos axis_is_pos
    (if start_xz_momentum ≠ none ∧ start_xz_momentum ≠ some required_direction
      then 1 else 0) +
    (if end_xz_momentum ≠ none ∧ end_xz_momentum ≠ some required_direction
      then 1 else 0)
  else if start_xz_momentum = end_xz_momentum ∧ start_xz_momentum ≠ none then 2
  else
    let axis_delta : Axis → Int := fun a =>
      match a with
      | .x => distance_vector.x
      | .y => distance_vector.y
      | .z => distance_vector.z
    1 +
    (match start_xz_momentum with
     | none => 0
     | some d =>
       let (axis, is_pos) := direction_axis_is_pos d
       if (decide (axis_delta axis > 0)) ≠ is_pos then 1 else 0) +
    (match end_xz_momentum with
     | none => 0
     | some d =>
       let (axis, is_pos) := direction_axis_is_pos d
       if (decide (axis_delta axis > 0)) ≠ is_pos then 1 else 0)

/-- _min_y_turns: one turn when the descent exceeds the horizontal span. -/
def min_y_turns (distance_vector : Pos)
    (_start_y_momentum : Option BusYDirection) : Int :=
  let horizontal_distance := (Pos.abs distance_vector.xz_pos).l1
  let distance_down := -distance_vector.y
  if distance_down > horizontal_distance then 1 else 0

/-- RedstonePathFindingProblem.min_cost: max(XZ L1 distance, |dy| plus one
repeater step per full 16 of height) plus momentum_break_cost times
max(min XZ turns, min Y turns). -/
def RedstonePathFindingProblem.min_cost (P : RedstonePathFindingProblem) :
    Option PartialBus → Int
  | none => 100000
  | some state =>
    let distance_vector := P.end_pos - state.current_position
    let y_distance := |distance_vector.y| + |distance_vector.y| / 16
    let xz_distance := distance_vector.xz_pos.l1
    let min_steps := max xz_distance y_distance
    let min_turns_xz :=
      min_xz_turns distance_vector state.momentum_xz_dir P.end_xz_dir
    let min_turns_y := min_y_turns distance_vector state.momentum_y_dir
    let min_momentum_breaks := max min_turns_xz min_turns_y
    min_steps + min_momentum_breaks * P.momentum_break_cost

/-- The ordering used by Python's sorted() over RedstonePathStep actions:
tuple comparison over (next_pos, is_repeater, facing).  Pos.__lt__ is the
all-componentwise partial order; sorted()'s result on ties of this partial
order is stable, which mergeSort reproduces. -/
def redstone_step_le (a b : RedstonePathStep) : Bool :=
  if a.next_pos ≠ b.next_pos then
    Pos.le a.next_pos b.next_pos && a.next_pos ≠ b.next_pos
  else if a.is_repeater ≠ b.is_repeater then !a.is_repeater && b.is_repeater
  else true

/-- Package a RedstonePathFindingProblem as a generic search problem over
the PartialBus | None state space. -/
def RedstonePathFindingProblem.search_problem (P : RedstonePathFindingProblem) :
    SearchProblem (Option PartialBus) RedstonePathStep :=
  { initial_state := some P.initial_state
    state_actions := P.state_actions
    state_action_result := P.state_action_result
    state_action_cost := P.state_action_cost
    is_goal_state := P.is_goal_state
    min_cost := P.min_cost
    action_le := redstone_step_le }

/-- The BussingError subtypes raised by redstone_bussing. -/
inductive BussingErr where
  | timeout
  | impossible
  | logic
deriving DecidableEq, Repr

/-- The verifying replay of redstone_bussing: fold the found action
sequence through state_action_result from the initial state.  A None state
anywhere propagates to the end (state_action_result of None is None), so
the final None is equivalent to the source's per-step check. -/
def RedstonePathFindingProblem.replay (P : RedstonePathFindingProblem)
    (steps : List RedstonePathStep) : Option PartialBus :=
  steps.foldl (fun state step => P.state_action_result state step)
    (some P.initial_state)

/-- redstone_bussing: A* search with truncated history, then a verifying
replay with full history.  SearchTimeoutError maps to BussingTimeoutError,
NoSolutionError to BussingImpossibleError, and a failed replay to
BussingLogicError. -/
def redstone_bussing (start_pos end_pos : Pos)
    (start_xz_dir end_xz_dir : Option Direction) (instance_points : Finset Pos)
    (other_buses : RedstoneBussing) (max_steps : Nat)
    (history_limit : Option Nat := some 1) : Except BussingErr RedstoneBussing :=
  let problem : RedstonePathFindingProblem :=
    { start_pos := start_pos, end_pos := end_pos, start_xz_dir := start_xz_dir
      end_xz_dir := end_xz_dir, instance_points := instance_points
      other_buses := other_buses, history_limit := history_limit }
  match a_star_bfs_searched_solution problem.search_problem max_steps with
  | .error .timeout => .error .timeout
  | .error .noSolution => .error .impossible
  | .ok steps =>
    match ({ problem with history_limit := none } :
        RedstonePathFindingProblem).replay steps with
    | none => .error .logic
    | some state => .ok state.current_bussing

/-- A run of an action sequence from a PartialBus: each action must be one
of the state's available actions (as the A* search guarantees) and each
step must succeed; returns the final state and the summed
state_action_cost. -/
def RedstonePathFindingProblem.run_action_seq (P : RedstonePathFindingProblem)
    (state : PartialBus) : List RedstonePathStep → Option (PartialBus × Int)
  | [] => some (state, 0)
  | a :: rest =>
    if a ∈ P.state_actions (some state) then
      match P.state_action_result (some state) a with
      | none => none
      | some state2 =>
        match P.run_action_seq state2 rest with
        | none => none
        | some (final, c) =>
          some (final, P.state_action_cost (some state) a + c)
    else none

/-- The distance component of min_cost: max(XZ L1 distance, |dy| plus one
repeater step per full 16 of height), without the momentum-break term. -/
def RedstonePathFindingProblem.distance_min_steps (P : RedstonePathFindingProblem)
    (state : PartialBus) : Int :=
  let distance_vector := P.end_pos - state.current_position
  max distance_vector.xz_pos.l1
    (|distance_vector.y| + |distance_vector.y| / 16)

/-- Valid signal strength values: the sixteen numeric cases actually used
are 1..15 (0 is rejected by CONNECTIVITY 1), plus the repeater sentinel. -/
def SigStrength.valid : SigStrength → Prop
  | .strength n => 1 ≤ n ∧ n ≤ 15
  | .repeater => True

/-- Well-formed router states: every recorded signal strength is valid, the
current voxel has a recorded strength, and a repeater sentinel at the
current voxel comes with a repeater-direction entry.  This holds for the
initial state and is preserved by every successful step. -/
def PartialBus.wf (state : PartialBus) : Prop :=
  (∀ e ∈ state.current_bussing.element_sig_strengths, SigStrength.valid e.2) ∧
  (∃ s, fd_lookup state.current_bussing.element_sig_strengths
    state.current_position = some s) ∧
  (fd_lookup state.current_bussing.element_sig_strengths state.current_position
      = some .repeater →
    state.current_position ∈ state.current_bussing.repeater_blocks)

/-- How many consecutive wire elements can still be placed from the
current element before a repeater is forced: 15 after a repeater, and
strength - 1 after a wire of that strength. -/
def PartialBus.capacity (state : PartialBus) : Nat :=
  match fd_lookup state.current_bussing.element_sig_strengths
      state.current_position with
  | some .repeater => 15
  | some (.strength n) => (n - 1).toNat
  | none => 0

/-- Whether the current element is a repeater. -/
def PartialBus.at_repeater (state : PartialBus) : Bool :=
  decide (state.current_position ∈ state.current_bussing.repeater_blocks)

/-- Lower bound on the number of router steps needed to change the current
Y coordinate by delta_y, given the current wire capacity and whether the
current element is a repeater: each step moves Y by at most one, climbs
spend wire capacity (15 wires per repeater), and descents are limited to
capacity + 1 consecutive descending steps (wires then one descending
repeater) with no descent directly after a repeater. -/
def y_steps_lower_bound (delta_y : Int) (capacity : Nat) (at_repeater : Bool) : Nat :=
  if 0 < delta_y then
    delta_y.toNat + (delta_y.toNat + 14 - capacity) / 15
  else if delta_y < 0 then
    (-delta_y).toNat +
      ((-delta_y).toNat + 14 - (if at_repeater then 0 else capacity + 1)) / 15
  else 0

/-- The step-count potential of a router state: an exact lower bound
argument for the distance part of min_cost. -/
def step_potential (P : RedstonePathFindingProblem) (state : PartialBus) : Nat :=
  max (P.end_pos - state.current_position).xz_pos.l1.toNat
    (y_steps_lower_bound (P.end_pos.y - state.current_position.y)
      state.capacity state.at_repeater)

/-! Concrete instances used to exercise the search framework and the
router. -/

/-- A routing problem whose only obstacle sits directly below the end
voxel, where it serves as the end element's foundation. -/
def c1_obstacle_problem : RedstonePathFindingProblem :=
  { start_pos := ⟨0, 0, 0⟩, end_pos := ⟨1, 0, 0⟩, start_xz_dir := none
    end_xz_dir := none, instance_points := {⟨1, -1, 0⟩}, other_buses := {} }

/-- A routing problem four blocks straight up, approachable by a zigzag
of ascending wire steps. -/
def c3_zigzag_problem : RedstonePathFindingProblem :=
  { start_pos := ⟨0, 0, 0⟩, end_pos := ⟨0, 4, 0⟩, start_xz_dir := none
    end_xz_dir := none, instance_points := ∅, other_buses := {} }

/-- An unobstructed straight-line routing problem. -/
def plain_route_problem : RedstonePathFindingProblem :=
  { start_pos := ⟨0, 0, 0⟩, end_pos := ⟨5, 0, 0⟩, start_xz_dir := none
    end_xz_dir := none, instance_points := ∅, other_buses := {} }

/-- A four-state problem whose three frontier entries all get priority 5
with distinct cumulative costs 1, 5 and 3: from state 0, action a leads to
state a (a goal) with costs 1/5/3 and heuristics 4/0/2. -/
def tie_example_problem : SearchProblem Nat Nat :=
  { initial_state := 0
    state_actions := fun s => if s = 0 then [1, 2, 3] else []
    state_action_result := fun _ a => a
    state_action_cost := fun _ a => if a = 1 then 1 else if a = 2 then 5 else 3
    is_goal_state := fun s => decide (s ≠ 0)
    min_cost := fun s => if s = 1 then 4 else if s = 2 then 0 else 2
    action_le := fun a b => a ≤ b }

/-- A local-search problem whose mutated candidate in round 1 is
good_enough but expensive: candidate 0 costs 5, candidate 1 costs 100 and
is good enough. -/
def early_return_problem : LocalSearchProblem Nat :=
  { random_solution := fun _ => 0
    mutated_solution := fun _ s => s + 1
    solution_cost := fun s => if s = 0 then 5 else 100
    good_enough := fun s => decide (s = 1) }

/-- The always-reject acceptance oracle. -/
def never_coin : Nat → Bool := fun _ => false

/-- A local-search problem that never triggers the good_enough early
return. -/
def no_early_problem : LocalSearchProblem Nat :=
  { random_solution := fun _ => 0
    mutated_solution := fun _ s => s + 1
    solution_cost := fun s => if s = 0 then 5 else 100
    good_enough := fun _ => false }

/-! # Theorems -/

@[simp] theorem pos_add_def (a b : Pos) : a + b = ⟨a.x + b.x, a.y + b.y, a.z + b.z⟩ :=
  rfl

@[simp] theorem pos_sub_def (a b : Pos) : a - b = ⟨a.x - b.x, a.y - b.y, a.z - b.z⟩ :=
  rfl

@[simp] theorem pos_neg_def (a : Pos) : -a = ⟨-a.x, -a.y, -a.z⟩ := rfl

/-! ## Region claims -/

theorem pos_y_rotated_four (p : Pos) : p.y_rotated 4 = p := rfl

theorem xz_direction_y_rotated_four (d : Direction) :
    xz_direction_y_rotated d 4 = d := by
  cases d <;> rfl

theorem foldr_union_empty_iff {α β : Type} [DecidableEq β] (l : List α)
    (f : α → Finset β) :
    l.foldr (fun x acc => f x ∪ acc) ∅ = ∅ ↔ ∀ x ∈ l, f x = ∅ := by
  induction l with
  | nil => simp
  | cons a t ih => simp [Finset.union_eq_empty, ih]

theorem region_is_empty_iff_points (r : Region) :
    r.is_empty = true ↔ r.region_points = ∅ := by
  induction r using Region.is_empty.induct with
  | case1 pts =>
    simp [Region.is_empty, Region.region_points, Finset.card_eq_zero]
  | case2 a b =>
    simp only [Region.is_empty, Region.region_points, Pos.le,
      Finset.image_eq_empty, Finset.product_eq_empty, Finset.Icc_eq_empty_iff,
      decide_eq_true_eq, Bool.and_eq_true]
    tauto
  | case3 subs ih =>
    simp only [Region.is_empty, Region.region_points, List.all_eq_true,
      foldr_union_empty_iff]
    constructor
    · intro h x hx
      exact (ih x).mp (h x hx)
    · intro h x hx
      exact (ih x).mpr (h x hx)

/-- C10: for every Region value r, bool(r) returns exactly is_empty(), so it
is True exactly when r contains no points — the inverse of the usual
falsy-empty convention; a caller writing "if region:" tests emptiness. -/
theorem region_bool_true_iff_empty :
    (∀ r : Region, Region.bool r = r.is_empty) ∧
    (∀ r : Region, Region.bool r = true ↔ r.region_points = ∅) := by
  constructor
  · intro r
    rfl
  · intro r
    rw [Region.bool]
    exact region_is_empty_iff_points r

theorem normalized_y_rotated_four (r : Region) (h : r.normalized) :
    Region.y_rotated 4 r = r := by
  induction r using Region.y_rotated.induct 4 with
  | case1 pts =>
    simp [Region.y_rotated, pos_y_rotated_four]
  | case2 a b =>
    rw [Region.normalized] at h
    simp only [Pos.le, Bool.and_eq_true, decide_eq_true_eq] at h
    obtain ⟨⟨hx, hy⟩, hz⟩ := h
    simp only [Region.y_rotated, pos_y_rotated_four]
    rw [Pos.elem_min, Pos.elem_max]
    congr 1 <;> simp [Pos.mk.injEq, min_eq_left, max_eq_right, hx, hy, hz]
  | case3 subs ih =>
    rw [Region.normalized] at h
    simp only [Region.y_rotated]
    congr 1
    rw [List.map_congr_left (fun r _ => ih r (h r.1 r.2))]
    exact List.attach_map_subtype_val subs

/-- C9 counterexample: a RectangularPrism whose corners are not ordered
(min_pos not componentwise ≤ max_pos, a value the source's is_empty
explicitly handles) is changed by y_rotated(4): the corners are
re-normalized, and the rotated prism even contains points the original
lacks. -/
theorem y_rotated_four_not_identity_on_denormalized_prism :
    Region.y_rotated 4 (.prism ⟨1, 0, 0⟩ ⟨0, 0, 0⟩) ≠ .prism ⟨1, 0, 0⟩ ⟨0, 0, 0⟩ ∧
    (Region.prism ⟨1, 0, 0⟩ ⟨0, 0, 0⟩).region_points = ∅ ∧
    (Region.y_rotated 4 (.prism ⟨1, 0, 0⟩ ⟨0, 0, 0⟩)).region_points ≠ ∅ := by
  refine ⟨?_, ?_, ?_⟩
  · intro h
    rw [Region.y_rotated] at h
    simp [Pos.elem_min, Pos.elem_max, pos_y_rotated_four, Pos.mk.injEq] at h
  · rw [Region.region_points]
    decide
  · rw [Region.y_rotated]
    simp only [pos_y_rotated_four]
    rw [Region.region_points]
    decide

/-- C9 (amended): Y-rotation by 4 quarter turns is the identity on every
Pos, on every XZ direction, on every PointRegion, on every Region whose
rectangular prisms are normalized (min_pos componentwise ≤ max_pos — the
re-normalization in RectangularPrism.y_rotated makes denormalized prism
values a counterexample), and on every placement. -/
theorem y_rotated_four_identity :
    (∀ p : Pos, p.y_rotated 4 = p) ∧
    (∀ d : Direction, xz_direction_y_rotated d 4 = d) ∧
    (∀ pts : Finset Pos, Region.y_rotated 4 (.point pts) = .point pts) ∧
    (∀ r : Region, r.normalized → Region.y_rotated 4 r = r) ∧
    (∀ placement : List (String × Pos × Direction),
      placement_y_rotated 4 placement = placement) := by
  refine ⟨pos_y_rotated_four, xz_direction_y_rotated_four, ?_,
    normalized_y_rotated_four, ?_⟩
  · intro pts
    simp [Region.y_rotated, pos_y_rotated_four]
  · intro placement
    rw [placement_y_rotated]
    conv_rhs => rw [← List.map_id placement]
    apply List.map_congr_left
    intro e _
    simp [pos_y_rotated_four, xz_direction_y_rotated_four]

/-- Witness for the amended C9 theorem: the identity at a concrete
normalized composite region. -/
theorem y_rotated_four_identity_witness :
    Region.normalized (.composite [.prism ⟨0, 0, 0⟩ ⟨2, 3, 4⟩, .point {⟨5, 6, 7⟩}]) ∧
    Region.y_rotated 4 (.composite [.prism ⟨0, 0, 0⟩ ⟨2, 3, 4⟩, .point {⟨5, 6, 7⟩}])
      = .composite [.prism ⟨0, 0, 0⟩ ⟨2, 3, 4⟩, .point {⟨5, 6, 7⟩}] := by
  constructor
  · rw [Region.normalized]
    intro r hr
    rcases List.mem_pair.mp hr with h | h <;> subst h <;> rw [Region.normalized]
    · decide
    · trivial
  · apply y_rotated_four_identity.2.2.2.1
    rw [Region.normalized]
    intro r hr
    rcases List.mem_pair.mp hr with h | h <;> subst h <;> rw [Region.normalized]
    · decide
    · trivial

/-! ## Naive-bussing heuristic claims -/

/-- C8: at the failing input — a single pin pair whose delta is (0, -2, 0),
which satisfies dy < 0 and horizontal distance 0 < |dy| = 2 —
pin_pair_excessive_downwards_pct returns 0.2, not the fraction 1 the spec
describes: the first branch adds 0.2 per qualifying pair and the elif
branch, which adds 1, repeats the identical condition and is unreachable. -/
theorem excessive_downwards_pct_failing_input :
    pin_pair_excessive_downwards_pct [(⟨0, 0, 0⟩, ⟨0, -2, 0⟩)] = 1 / 5 ∧
    excessive_downwards_fraction_spec [(⟨0, 0, 0⟩, ⟨0, -2, 0⟩)] = 1 ∧
    (1 / 5 : Rat) ≠ 1 := by
  refine ⟨?_, ?_, by norm_num⟩
  · rw [pin_pair_excessive_downwards_pct]
    simp only [List.foldl, excessive_downwards_increment]
    norm_num [Pos.abs, Pos.xz_pos, Pos.l1]
  · rw [excessive_downwards_fraction_spec]
    norm_num [List.filter, Pos.abs, Pos.xz_pos, Pos.l1]

/-! ## Simulated-annealing claims -/

/-- C5 counterexample: with a problem whose round-1 mutated candidate is
good_enough but costs 100, the run returns that candidate early while the
only accepted candidate cost 5, so the returned solution's candidate cost
exceeds the minimum cost over accepted candidates. -/
theorem sim_annealing_early_return_exceeds_accepted_min :
    sim_annealing_searched_solution early_return_problem never_coin 2 1 = some 1 ∧
    sa_run_accepted_costs early_return_problem never_coin 2 1 = [5] ∧
    early_return_problem.solution_cost 1 = 100 ∧
    ¬ ((100 : Int) ≤ 5) := by
  refine ⟨by decide, by decide, by decide, by decide⟩


theorem sa_round_inr_spec {Sol : Type} (P : LocalSearchProblem Sol)
    (coin : Nat → Bool) (rpr i : Nat) (st : SAState Sol)
    (hg : ∀ s, P.good_enough s = false)
    (hc : st.current.isSome = true ∨ i % rpr = 0) :
    ∃ (candidate : Sol) (st' : SAState Sol),
      sa_round P coin rpr i st = some (.inr st') ∧
      st'.current.isSome = true ∧
      (st'.accepted_costs = st.accepted_costs ∨
        st'.accepted_costs = st.accepted_costs ++ [P.solution_cost candidate]) ∧
      ((st.best = none ∧ st'.best = some (candidate, P.solution_cost candidate)) ∨
        (∃ s0 b0, st.best = some (s0, b0) ∧
          ((st'.best = some (candidate, P.solution_cost candidate) ∧
              P.solution_cost candidate < b0) ∨
            (st'.best = some (s0, b0) ∧ ¬ P.solution_cost candidate < b0)))) := by
  rw [sa_round]
  have hcand : ∃ cand, (if i % rpr = 0 then some (P.random_solution i)
      else match st.current with
        | some (cur, _) => some (P.mutated_solution i cur)
        | none => none) = some cand := by
    rcases hc with hcur | hmod
    · split
      · exact ⟨_, rfl⟩
      · match hcur2 : st.current with
        | some (cur, c) => exact ⟨_, rfl⟩
        | none => rw [hcur2] at hcur; simp at hcur
    · simp [hmod]
  obtain ⟨cand, hcand⟩ := hcand
  rw [hcand]
  simp only [hg, Bool.false_eq_true, if_false]
  rcases hcur : st.current with _ | ⟨curs, curc⟩
  · rcases hbb : st.best with _ | ⟨s0, b0⟩
    · exact ⟨cand, _, rfl, by simp [hbb], by simp [hbb], Or.inl ⟨by simp [hbb], by simp [hbb]⟩⟩
    · by_cases hlt : P.solution_cost cand < b0
      · exact ⟨cand, _, rfl, by simp [hbb, hlt], by simp [hbb, hlt],
          Or.inr ⟨s0, b0, by simp [hbb], Or.inl ⟨by simp [hbb, hlt], hlt⟩⟩⟩
      · exact ⟨cand, _, rfl, by simp [hbb, hlt], by simp [hbb, hlt],
          Or.inr ⟨s0, b0, by simp [hbb], Or.inr ⟨by simp [hbb, hlt], hlt⟩⟩⟩
  · by_cases haccept : (decide (P.solution_cost cand < curc) || coin i) = true
    · rcases hbb : st.best with _ | ⟨s0, b0⟩
      · exact ⟨cand, _, rfl, by simp [haccept, hbb], by simp [haccept, hbb],
          Or.inl ⟨by simp [hbb], by simp [haccept, hbb]⟩⟩
      · by_cases hlt : P.solution_cost cand < b0
        · exact ⟨cand, _, rfl, by simp [haccept, hbb, hlt],
            by simp [haccept, hbb, hlt],
            Or.inr ⟨s0, b0, by simp [hbb], Or.inl ⟨by simp [haccept, hbb, hlt], hlt⟩⟩⟩
        · exact ⟨cand, _, rfl, by simp [haccept, hbb, hlt],
            by simp [haccept, hbb, hlt],
            Or.inr ⟨s0, b0, by simp [hbb], Or.inr ⟨by simp [haccept, hbb, hlt], hlt⟩⟩⟩
    · rcases hbb : st.best with _ | ⟨s0, b0⟩
      · exact ⟨cand, _, rfl, by simp [haccept, hbb, hcur], by simp [haccept, hbb],
          Or.inl ⟨by simp [hbb], by simp [haccept, hbb]⟩⟩
      · by_cases hlt : P.solution_cost cand < b0
        · exact ⟨cand, _, rfl, by simp [haccept, hbb, hlt, hcur],
            by simp [haccept, hbb, hlt],
            Or.inr ⟨s0, b0, by simp [hbb], Or.inl ⟨by simp [haccept, hbb, hlt], hlt⟩⟩⟩
        · exact ⟨cand, _, rfl, by simp [haccept, hbb, hlt, hcur],
            by simp [haccept, hbb, hlt],
            Or.inr ⟨s0, b0, by simp [hbb], Or.inr ⟨by simp [haccept, hbb, hlt], hlt⟩⟩⟩

theorem sa_loop_invariant {Sol : Type} (P : LocalSearchProblem Sol)
    (coin : Nat → Bool) (rpr : Nat) (hg : ∀ s, P.good_enough s = false) :
    ∀ (L : List Nat) (st : SAState Sol),
      (st.current.isSome = true ∨ ∀ hd rest, L = hd :: rest → hd % rpr = 0) →
      ∃ st', sa_loop P coin rpr L st = .finished st' ∧
        (((∀ s bc, st.best = some (s, bc) →
              bc = P.solution_cost s ∧ ∀ c ∈ st.accepted_costs, bc ≤ c) ∧
            (st.best = none → st.accepted_costs = [])) →
          ((∀ s bc, st'.best = some (s, bc) →
              bc = P.solution_cost s ∧ ∀ c ∈ st'.accepted_costs, bc ≤ c) ∧
            (st'.best = none → st'.accepted_costs = []))) ∧
        (L ≠ [] → st'.best.isSome = true) := by
  intro L
  induction L with
  | nil =>
    intro st _
    exact ⟨st, rfl, fun h => h, by simp⟩
  | cons i rest ih =>
    intro st hcond
    have hc : st.current.isSome = true ∨ i % rpr = 0 := by
      rcases hcond with h | h
      · exact Or.inl h
      · exact Or.inr (h i rest rfl)
    obtain ⟨cand, st1, hrun, hcur1, hacc1, hbest1⟩ :=
      sa_round_inr_spec P coin rpr i st hg hc
    obtain ⟨st', hrun', htrans, hbestsome⟩ := ih st1 (Or.inl hcur1)
    refine ⟨st', ?_, ?_, ?_⟩
    · rw [sa_loop, hrun]
      exact hrun'
    · intro hinv
      apply htrans
      constructor
      · intro s bc hsome
        rcases hbest1 with ⟨hnone, hsome1⟩ | ⟨s0, b0, hsome0, hcase⟩
        · rw [hsome1] at hsome
          simp only [Option.some.injEq, Prod.mk.injEq] at hsome
          have hacc0 := hinv.2 hnone
          refine ⟨by rw [← hsome.2, hsome.1], ?_⟩
          intro c hcmem
          rcases hacc1 with h1 | h1 <;> rw [h1, hacc0] at hcmem <;> simp at hcmem
          omega
        · have hold := hinv.1 s0 b0 hsome0
          rcases hcase with ⟨hsome1, hlt⟩ | ⟨hsome1, hnlt⟩
          · rw [hsome1] at hsome
            simp only [Option.some.injEq, Prod.mk.injEq] at hsome
            refine ⟨by rw [← hsome.2, hsome.1], ?_⟩
            intro c hcmem
            rcases hacc1 with h1 | h1 <;> rw [h1] at hcmem
            · have := hold.2 c hcmem
              omega
            · rcases List.mem_append.mp hcmem with h2 | h2
              · have := hold.2 c h2
                omega
              · simp at h2
                omega
          · rw [hsome1] at hsome
            simp only [Option.some.injEq, Prod.mk.injEq] at hsome
            refine ⟨by rw [← hsome.2, ← hsome.1]; exact hold.1, ?_⟩
            intro c hcmem
            rcases hacc1 with h1 | h1 <;> rw [h1] at hcmem
            · rw [← hsome.2]
              exact hold.2 c hcmem
            · rcases List.mem_append.mp hcmem with h2 | h2
              · rw [← hsome.2]
                exact hold.2 c h2
              · simp at h2
                rw [← hsome.2, h2]
                omega
      · intro hnone'
        exfalso
        rcases hbest1 with ⟨_, hsome1⟩ | ⟨s0, b0, _, hcase⟩
        · rw [hsome1] at hnone'
          simp at hnone'
        · rcases hcase with ⟨hsome1, _⟩ | ⟨hsome1, _⟩ <;> rw [hsome1] at hnone' <;>
            simp at hnone'
    · intro _
      rcases rest with _ | ⟨j, rest'⟩
      · rw [sa_loop] at hrun'
        cases hrun'
        rcases hbest1 with ⟨_, hsome1⟩ | ⟨s0, b0, _, hcase⟩
        · simp [hsome1]
        · rcases hcase with ⟨hsome1, _⟩ | ⟨hsome1, _⟩ <;> simp [hsome1]
      · exact hbestsome (by simp)

/-- C5 (amended): provided good_enough rejects every candidate (so the
early-return path is never taken), the solution returned by
sim_annealing_searched_solution has candidate cost at most the minimum
cost over all accepted candidates — including runs in which every
candidate after the first is rejected.  (The unrestricted claim fails:
the good_enough early return hands back the current candidate without
comparing it to anything.) -/
theorem sim_annealing_cost_le_accepted {Sol : Type} (P : LocalSearchProblem Sol)
    (coin : Nat → Bool) (total_rounds restarts : Nat)
    (hT : 0 < total_rounds) (hR : 0 < total_rounds / restarts)
    (hg : ∀ s, P.good_enough s = false) :
    ∃ sol, sim_annealing_searched_solution P coin total_rounds restarts = some sol ∧
      ∀ c ∈ sa_run_accepted_costs P coin total_rounds restarts,
        P.solution_cost sol ≤ c := by
  have hhead : ∀ hd rest, List.range total_rounds = hd :: rest → hd % (total_rounds / restarts) = 0 := by
    intro hd rest h
    obtain ⟨T', rfl⟩ : ∃ T', total_rounds = T' + 1 :=
      ⟨total_rounds - 1, by omega⟩
    rw [List.range_succ_eq_map] at h
    have : hd = 0 := (List.cons.injEq _ _ _ _ ▸ h).1.symm
    simp [this]
  obtain ⟨st', hrun, htrans, hsome⟩ :=
    sa_loop_invariant P coin (total_rounds / restarts) hg (List.range total_rounds)
      ⟨none, none, []⟩ (Or.inr hhead)
  have hne : List.range total_rounds ≠ [] := by
    simp only [ne_eq, List.range_eq_nil]
    omega
  have hinv := htrans ⟨fun s bc h => by simp at h, fun _ => rfl⟩
  obtain ⟨⟨sol, bc⟩, hbest⟩ := Option.isSome_iff_exists.mp (hsome hne)
  have hprops := hinv.1 sol bc hbest
  refine ⟨sol, ?_, ?_⟩
  · rw [sim_annealing_searched_solution]
    rw [if_neg (by omega)]
    simp only []
    rw [if_neg (by omega), hrun]
    simp [hbest]
  · intro c hc
    rw [sa_run_accepted_costs] at hc
    rw [if_neg (by omega)] at hc
    simp only [] at hc
    rw [if_neg (by omega), hrun] at hc
    rw [← hprops.1]
    exact hprops.2 c hc

/-- Witness for the amended C5 theorem at a concrete problem and run. -/
theorem sim_annealing_cost_le_accepted_witness :
    (0 < 2 ∧ 0 < 2 / 1) ∧
    ∃ sol, sim_annealing_searched_solution no_early_problem never_coin 2 1 = some sol ∧
      ∀ c ∈ sa_run_accepted_costs no_early_problem never_coin 2 1,
        no_early_problem.solution_cost sol ≤ c :=
  ⟨⟨by decide, by decide⟩,
    sim_annealing_cost_le_accepted no_early_problem never_coin 2 1 (by decide)
      (by decide) (fun _ => rfl)⟩

/-! ## Path-search claims -/

/-- C6 counterexample: a re-entered state whose cumulative cost equals the
best recorded cost (5, not strictly better) is not pruned —
subtree_solution_should_continue records the cost again, proceeds, and here
even returns a solution, because the source prunes only on
step.cost > prev_min_cost. -/
theorem subtree_equal_cost_reentry_not_pruned :
    dict_get [((7 : Nat), (5 : Int))] 7 = some 5 ∧
    ¬ ((5 : Int) < 5) ∧
    (subtree_solution_should_continue tie_example_problem 1 100 [(7, 5)] 3
        ⟨none, none, 7, 5, 0⟩ : Except SearchErr (IddfsRet Nat Nat)) =
      .ok ⟨some ⟨none, none, 7, 5, 0⟩, false, none, [(7, 5), (7, 5)], 3⟩ :=
  ⟨rfl, by decide, by rw [subtree_solution_should_continue]; rfl⟩

/-- C6 (amended): a re-entry is pruned — no solution, no successor
exploration, the recorded map and step budget unchanged — exactly when its
cumulative cost is strictly worse than the best cumulative cost previously
recorded for that state; re-entries at equal cost proceed. -/
theorem subtree_prunes_strictly_worse_reentry {σ α : Type} [DecidableEq σ]
    (P : SearchProblem σ α) (fuel : Nat) (max_cost : Int)
    (m : List (σ × Int)) (remaining : Nat) (step : PStep σ α) (c : Int)
    (hm : dict_get m step.state = some c) (hgt : step.cost > c) :
    subtree_solution_should_continue P (fuel + 1) max_cost m remaining step =
      .ok ⟨none, false, none, m, remaining⟩ := by
  rw [subtree_solution_should_continue]
  simp [hm, hgt]

/-- Witness for the amended C6 theorem: a concrete strictly-worse re-entry
is pruned. -/
theorem subtree_prunes_strictly_worse_reentry_witness :
    dict_get [((7 : Nat), (5 : Int))] 7 = some 5 ∧ ((6 : Int) > 5) ∧
    (subtree_solution_should_continue tie_example_problem 1 100 [(7, 5)] 3
        ⟨none, none, 7, 6, 6⟩ : Except SearchErr (IddfsRet Nat Nat)) =
      .ok ⟨none, false, none, [(7, 5)], 3⟩ :=
  ⟨rfl, by decide,
    subtree_prunes_strictly_worse_reentry tie_example_problem 0 100 [(7, 5)] 3
      ⟨none, none, 7, 6, 6⟩ 5 rfl (by decide)⟩

/-- C7 counterexample: from the initial state of tie_example_problem the
three frontier entries pushed (in sorted action order) have cumulative
costs 1, 5, 3 and one shared priority min_cost = 5.  The secondary key
(-cumulative_cost, state, action) would order the cost-5 entry (state 2)
first, but the heap expands state 1 — the shallowest, cheapest entry — and
the search returns [1]: equal-priority entries are not expanded in
secondary-key order and deeper cheaper paths do not expand first. -/
theorem a_star_ties_not_expanded_by_secondary_key :
    ((PStep.initial_step 0 : PStep Nat Nat).next_steps tie_example_problem).map
        (fun s => (s.state, s.cost, s.min_cost)) =
      [(1, 1, 5), (2, 5, 5), (3, 3, 5)] ∧
    a_star_bfs_expansions tie_example_problem
        [PStep.initial_step tie_example_problem.initial_state] [] 10 = [0, 1] ∧
    (a_star_bfs_searched_solution tie_example_problem 10 :
        Except SearchErr (List Nat)) = .ok [1] ∧
    ¬ ((1 : Int) ≥ 5) := by
  have hms : List.mergeSort [1, 2, 3] (fun a b : Nat => decide (a ≤ b)) = [1, 2, 3] :=
    List.mergeSort_of_sorted (by simp)
  refine ⟨?_, ?_, ?_, by norm_num⟩
  · simp +decide [PStep.next_steps, PStep.initial_step, PStep.state, PStep.cost,
      PStep.min_cost, tie_example_problem, hms]
  · simp +decide [a_star_bfs_expansions, heappop, heappush,
      heap_siftdown, heap_siftup, PStep.initial_step, PStep.next_steps,
      PStep.action_sequence, PStep.lt, PStep.state, PStep.cost, PStep.min_cost,
      tie_example_problem, hms]
  · simp +decide [a_star_bfs_searched_solution, a_star_bfs_loop, heappop, heappush,
      heap_siftdown, heap_siftup, PStep.initial_step, PStep.next_steps,
      PStep.action_sequence, PStep.lt, PStep.state, PStep.cost, PStep.min_cost,
      tie_example_problem, hms]

/-- C7 (amended): Step ordering carries no secondary key — Step.__lt__
compares min_cost (cumulative cost plus heuristic) alone, so two frontier
entries of equal priority are unordered no matter how their cumulative
costs, states or actions differ, and the expansion order among them is
the heap's arrangement order rather than the (-cumulative cost, state,
action) key (which the counterexample shows can put shallower, cheaper
paths first). -/
theorem step_lt_ignores_secondary_key {σ α : Type} (a b : PStep σ α)
    (h : a.min_cost = b.min_cost) :
    PStep.lt a b = false ∧ PStep.lt b a = false := by
  simp [PStep.lt, h]

/-- Witness: two equal-priority steps with different cumulative costs,
states and actions compare unordered in both directions. -/
theorem step_lt_ignores_secondary_key_witness :
    (PStep.mk none (some 1) 1 1 5 : PStep Nat Nat).min_cost =
      (PStep.mk none (some 2) 2 5 5 : PStep Nat Nat).min_cost ∧
    PStep.lt (PStep.mk none (some 1) 1 1 5 : PStep Nat Nat)
        (PStep.mk none (some 2) 2 5 5) = false ∧
    PStep.lt (PStep.mk none (some 2) 2 5 5 : PStep Nat Nat)
        (PStep.mk none (some 1) 1 1 5) = false := by
  refine ⟨rfl, ?_, ?_⟩
  · exact (step_lt_ignores_secondary_key (PStep.mk none (some 1) 1 1 5 : PStep Nat Nat)
      (PStep.mk none (some 2) 2 5 5) rfl).1
  · exact (step_lt_ignores_secondary_key (PStep.mk none (some 1) 1 1 5 : PStep Nat Nat)
      (PStep.mk none (some 2) 2 5 5) rfl).2

/-- C4: redstone_bussing raises BussingTimeoutError exactly when the A*
search runs out of max_steps expansions (SearchTimeoutError),
BussingImpossibleError exactly when the frontier empties without a goal
(NoSolutionError), BussingLogicError exactly when the search found an
action sequence but the verifying replay with untruncated history fails,
and otherwise returns the bussing of the replayed final state. -/
theorem redstone_bussing_error_mapping (sp ep : Pos) (sd ed : Option Direction)
    (ip : Finset Pos) (ob : RedstoneBussing) (ms : Nat) (hl : Option Nat) :
    (redstone_bussing sp ep sd ed ip ob ms hl = .error .timeout ↔
      a_star_bfs_searched_solution
        ({ start_pos := sp, end_pos := ep, start_xz_dir := sd, end_xz_dir := ed,
           instance_points := ip, other_buses := ob, history_limit := hl } :
          RedstonePathFindingProblem).search_problem ms = .error .timeout) ∧
    (redstone_bussing sp ep sd ed ip ob ms hl = .error .impossible ↔
      a_star_bfs_searched_solution
        ({ start_pos := sp, end_pos := ep, start_xz_dir := sd, end_xz_dir := ed,
           instance_points := ip, other_buses := ob, history_limit := hl } :
          RedstonePathFindingProblem).search_problem ms = .error .noSolution) ∧
    (redstone_bussing sp ep sd ed ip ob ms hl = .error .logic ↔
      ∃ steps, a_star_bfs_searched_solution
          ({ start_pos := sp, end_pos := ep, start_xz_dir := sd, end_xz_dir := ed,
             instance_points := ip, other_buses := ob, history_limit := hl } :
            RedstonePathFindingProblem).search_problem ms = .ok steps ∧
        ({ start_pos := sp, end_pos := ep, start_xz_dir := sd, end_xz_dir := ed,
           instance_points := ip, other_buses := ob, history_limit := none } :
          RedstonePathFindingProblem).replay steps = none) ∧
    (∀ bus, redstone_bussing sp ep sd ed ip ob ms hl = .ok bus ↔
      ∃ steps st, a_star_bfs_searched_solution
          ({ start_pos := sp, end_pos := ep, start_xz_dir := sd, end_xz_dir := ed,
             instance_points := ip, other_buses := ob, history_limit := hl } :
            RedstonePathFindingProblem).search_problem ms = .ok steps ∧
        ({ start_pos := sp, end_pos := ep, start_xz_dir := sd, end_xz_dir := ed,
           instance_points := ip, other_buses := ob, history_limit := none } :
          RedstonePathFindingProblem).replay steps = some st ∧
        bus = st.current_bussing) := by
  rcases hA : a_star_bfs_searched_solution ({ start_pos := sp, end_pos := ep, start_xz_dir := sd, end_xz_dir := ed, instance_points := ip, other_buses := ob, history_limit := hl } : RedstonePathFindingProblem).search_problem ms with e | steps
  · cases e <;> simp [redstone_bussing, hA]
  · rcases hR : ({ start_pos := sp, end_pos := ep, start_xz_dir := sd, end_xz_dir := ed, instance_points := ip, other_buses := ob, history_limit := none } : RedstonePathFindingProblem).replay steps with _ | st
    · simp [redstone_bussing, hA, hR]
    · simp [redstone_bussing, hA, hR]
      intro bus
      exact eq_comm

/-! ## Router invariants: facts about add_step and replay -/

theorem strip_itep {α : Type} {c : Prop} [Decidable c] {x : Option α} {b : α}
    (h : (if c then none else x) = some b) : ¬ c ∧ x = some b := by
  by_cases hc : c
  · rw [if_pos hc] at h
    exact absurd h (by simp)
  · rw [if_neg hc] at h
    exact ⟨hc, h⟩

theorem add_step_success_spec {self other : RedstoneBussing} {inst : Finset Pos}
    {prev endp : Pos} {step : RedstonePathStep} {nb : RedstoneBussing}
    (h : RedstoneBussing.add_step self other inst prev endp step = some nb) :
    (step.next_pos = endp ∨
      ({step.next_pos, step.next_pos + direction_unit_pos Direction.down} : Finset Pos) ∩
        (other.element_blocks ∪ other.element_foundation_blocks ∪
          self.element_blocks ∪ self.element_foundation_blocks ∪ inst) = ∅) ∧
    ¬(prev ∈ self.repeater_blocks ∧ step.next_pos.y < prev.y) ∧
    ∃ σ, nb.element_sig_strengths = self.element_sig_strengths ++ [(step.next_pos, σ)] ∧
      σ ≠ .strength 0 ∧
      ((step.is_repeater = true ∧ σ = .repeater ∧
          ∃ f, step.facing = some f ∧
            nb.repeater_directions = self.repeater_directions ++ [(step.next_pos, f)]) ∨
       (step.is_repeater = false ∧ nb.repeater_directions = self.repeater_directions ∧
          ((fd_lookup self.element_sig_strengths prev = some .repeater ∧
              σ = .strength 15) ∨
           (∃ n, fd_lookup self.element_sig_strengths prev = some (.strength n) ∧
              σ = .strength (n - 1))))) := by
  simp only [RedstoneBussing.add_step] at h
  obtain ⟨hc1, h⟩ := strip_itep h
  have hcol : step.next_pos = endp ∨
      ({step.next_pos, step.next_pos + direction_unit_pos Direction.down} : Finset Pos) ∩
        (other.element_blocks ∪ other.element_foundation_blocks ∪
          self.element_blocks ∪ self.element_foundation_blocks ∪ inst) = ∅ := by
    by_cases he : step.next_pos = endp
    · exact Or.inl he
    · right
      simp at hc1
      simpa [Finset.union_assoc] using hc1 he
  obtain ⟨hnoise, h⟩ := strip_itep h
  rcases hrep : step.is_repeater with _ | _
  · -- wire step
    rw [hrep] at h
    rcases hpv : fd_lookup self.element_sig_strengths prev with _ | ps
    · rw [hpv] at h
      simp at h
    · rw [hpv] at h
      rcases ps with n | _
      · -- previous was a wire of strength n
        obtain ⟨hz, h⟩ := strip_itep h
        obtain ⟨hC2, h⟩ := strip_itep h
        obtain ⟨hC3, h⟩ := strip_itep h
        obtain rfl := (Option.some.inj h).symm
        refine ⟨hcol, ?_, SigStrength.strength (n - 1), rfl, hz,
          Or.inr ⟨rfl, rfl, Or.inr ⟨n, rfl, rfl⟩⟩⟩
        rintro ⟨hPR, hYlt⟩
        apply hC2
        refine decide_eq_true ?_
        apply Finset.ne_empty_of_mem
        show step.next_pos + direction_unit_pos Direction.up ∈ _
        exact Finset.mem_inter.mpr ⟨by simp [hYlt], by simp [hPR, hYlt]⟩
      · -- previous was a repeater
        obtain ⟨hC2, h⟩ := strip_itep h
        obtain ⟨hC3, h⟩ := strip_itep h
        obtain rfl := (Option.some.inj h).symm
        refine ⟨hcol, ?_, SigStrength.strength 15, rfl, by simp,
          Or.inr ⟨rfl, rfl, Or.inl ⟨rfl, rfl⟩⟩⟩
        rintro ⟨hPR, hYlt⟩
        apply hC2
        refine decide_eq_true ?_
        apply Finset.ne_empty_of_mem
        show step.next_pos + direction_unit_pos Direction.up ∈ _
        exact Finset.mem_inter.mpr ⟨by simp [hYlt], by simp [hPR, hYlt]⟩
  · -- repeater step
    rw [hrep] at h
    rcases hfac : step.facing with _ | f
    · rw [hfac] at h
      simp at h
    · rw [hfac] at h
      obtain ⟨hnoisy, h⟩ := strip_itep h
      obtain ⟨hz0, h⟩ := strip_itep h
      obtain ⟨hC2, h⟩ := strip_itep h
      obtain ⟨hC3, h⟩ := strip_itep h
      obtain rfl := (Option.some.inj h).symm
      refine ⟨hcol, ?_, SigStrength.repeater, rfl, by simp,
        Or.inl ⟨rfl, rfl, f, rfl, rfl⟩⟩
      rintro ⟨hPR, hYlt⟩
      apply hC2
      refine decide_eq_true ?_
      apply Finset.ne_empty_of_mem
      show step.next_pos + direction_unit_pos Direction.up ∈ _
      exact Finset.mem_inter.mpr ⟨by simp [hYlt], by simp [hPR, hYlt]⟩

/-- The element-and-foundation set grows by exactly the new element and its
foundation when one binding is appended. -/
theorem efb_append {b nb : RedstoneBussing} {q : Pos} {σ : SigStrength}
    (hes : nb.element_sig_strengths = b.element_sig_strengths ++ [(q, σ)]) :
    nb.element_foundation_blocks =
      b.element_foundation_blocks ∪ {q, q + direction_unit_pos Direction.down} := by
  ext p
  simp only [RedstoneBussing.element_foundation_blocks, RedstoneBussing.element_blocks,
    RedstoneBussing.foundation_blocks, fd_keys, hes, Finset.mem_union, Finset.mem_image,
    List.mem_toFinset, List.map_append, List.mem_append, List.mem_map, List.map_cons,
    List.map_nil, List.mem_cons, List.not_mem_nil, or_false, Finset.mem_insert,
    Finset.mem_singleton]
  constructor
  · rintro (⟨⟨x, hx⟩ | rfl⟩ | ⟨a, (⟨x, hx⟩ | rfl), rfl⟩)
    · exact Or.inl (Or.inl ⟨x, hx⟩)
    · exact Or.inr (Or.inl rfl)
    · exact Or.inl (Or.inr ⟨a, ⟨x, hx⟩, rfl⟩)
    · exact Or.inr (Or.inr rfl)
  · rintro ((⟨x, hx⟩ | ⟨a, ⟨x, hx⟩, rfl⟩) | (rfl | rfl))
    · exact Or.inl (Or.inl ⟨x, hx⟩)
    · exact Or.inr ⟨a, Or.inl ⟨x, hx⟩, rfl⟩
    · exact Or.inl (Or.inr rfl)
    · exact Or.inr ⟨q, Or.inr rfl, rfl⟩

/-- Folding the replay step function from a dead state stays dead. -/
theorem replay_foldl_none (P : RedstonePathFindingProblem) :
    ∀ l : List RedstonePathStep,
      List.foldl (fun s a => P.state_action_result s a) none l = none := by
  intro l
  induction l with
  | nil => rfl
  | cons a t ih => exact ih

/-- C1 counterexample: in c1_obstacle_problem the obstacle (1,-1,0) lies
directly below the end voxel (1,0,0).  The single legal wire step from the
start onto the end voxel succeeds (add_step skips the collision check
entirely at the end voxel), reaches a goal state at cost 1, and the
resulting path's element-and-foundation set contains the obstacle voxel
(1,-1,0), which is an obstacle distinct from the end voxel — contradicting
"(W.element ∪ W.foundation) ∩ O = ∅ except at the end voxel". -/
theorem routed_path_foundation_hits_obstacle :
    ((c1_obstacle_problem.run_action_seq c1_obstacle_problem.initial_state
        [⟨⟨1, 0, 0⟩, false, none⟩]).map fun p =>
      (c1_obstacle_problem.is_goal_state (some p.1),
       decide ((⟨1, -1, 0⟩ : Pos) ∈ p.1.current_bussing.element_foundation_blocks),
       p.2)) = some (true, true, 1) ∧
    (⟨1, -1, 0⟩ : Pos) ∈ c1_obstacle_problem.instance_points ∧
    (⟨1, -1, 0⟩ : Pos) ≠ c1_obstacle_problem.end_pos := by
  refine ⟨by decide, by decide, by decide⟩

/-- C1 (amended): add_step does refuse any step whose new element or
foundation voxel clashes with the accumulated or preexisting
element/foundation voxels or the obstacle set — except that at the end
voxel the check is skipped entirely, exempting both the end voxel and its
foundation.  Consequently a replayed path's element-and-foundation voxels
meet the obstacle set (other buses' elements and foundations plus the
instance points) only at the end voxel or the end voxel's foundation,
provided the start voxel and its foundation are themselves clear. -/
theorem replay_elements_avoid_obstacles
    (P : RedstonePathFindingProblem) (steps : List RedstonePathStep)
    (st : PartialBus)
    (hstart : ({P.start_pos, P.start_pos + direction_unit_pos Direction.down} :
        Finset Pos) ∩
        (P.other_buses.element_blocks ∪ P.other_buses.element_foundation_blocks ∪
          P.instance_points) = ∅)
    (hhist : P.history_limit = none)
    (hrep : P.replay steps = some st) :
    ∀ p ∈ st.current_bussing.element_foundation_blocks,
      p ∈ P.other_buses.element_blocks ∪ P.other_buses.element_foundation_blocks ∪
          P.instance_points →
      p = P.end_pos ∨ p = P.end_pos + direction_unit_pos Direction.down := by
  have key : ∀ (acts : List RedstonePathStep) (s0 : PartialBus),
      (∀ p ∈ s0.current_bussing.element_foundation_blocks,
        p ∈ P.other_buses.element_blocks ∪ P.other_buses.element_foundation_blocks ∪
            P.instance_points →
        p = P.end_pos ∨ p = P.end_pos + direction_unit_pos Direction.down) →
      ∀ s, List.foldl (fun s a => P.state_action_result s a) (some s0) acts = some s →
      (∀ p ∈ s.current_bussing.element_foundation_blocks,
        p ∈ P.other_buses.element_blocks ∪ P.other_buses.element_foundation_blocks ∪
            P.instance_points →
        p = P.end_pos ∨ p = P.end_pos + direction_unit_pos Direction.down) := by
    intro acts
    induction acts with
    | nil =>
      intro s0 h0 s hf
      obtain rfl := Option.some.inj hf
      exact h0
    | cons a rest ih =>
      intro s0 h0 s hf
      rw [List.foldl_cons] at hf
      rcases hsar : P.state_action_result (some s0) a with _ | s1
      · rw [hsar] at hf
        rw [replay_foldl_none] at hf
        exact absurd hf (by simp)
      · rw [hsar] at hf
        refine ih s1 ?_ s hf
        -- one successful step preserves the invariant
        simp only [RedstonePathFindingProblem.state_action_result, hhist] at hsar
        rcases hm : next_momentum_and_broken s0 a with _ | trip
        · rw [hm] at hsar
          exact absurd hsar (by simp)
        · rw [hm] at hsar
          rcases trip with ⟨mx, my, mb⟩
          rcases ha : s0.current_bussing.add_step P.other_buses P.instance_points
              s0.current_position P.end_pos a with _ | nb
          · rw [ha] at hsar
            exact absurd hsar (by simp)
          · rw [ha] at hsar
            obtain rfl := (Option.some.inj hsar).symm
            obtain ⟨hcol, _, σ, hes, _, _⟩ := add_step_success_spec ha
            intro p hp hpO
            rw [efb_append hes] at hp
            rcases Finset.mem_union.mp hp with hpold | hpnew
            · exact h0 p hpold hpO
            · have hp2 : p = a.next_pos ∨ p = a.next_pos + direction_unit_pos Direction.down := by
                simpa using hpnew
              rcases hcol with hend | hempty
              · rw [hend] at hp2
                exact hp2
              · exfalso
                have hpU : p ∈ P.other_buses.element_blocks ∪
                    P.other_buses.element_foundation_blocks ∪
                    s0.current_bussing.element_blocks ∪
                    s0.current_bussing.element_foundation_blocks ∪ P.instance_points := by
                  rcases Finset.mem_union.mp hpO with hAB | hI
                  · rcases Finset.mem_union.mp hAB with hA | hB
                    · simp [Finset.mem_union, hA]
                    · simp [Finset.mem_union, hB]
                  · simp [Finset.mem_union, hI]
                have hpP : p ∈ ({a.next_pos, a.next_pos + direction_unit_pos Direction.down} :
                    Finset Pos) := by
                  simpa using hp2
                have : p ∈ (({a.next_pos, a.next_pos + direction_unit_pos Direction.down} :
                    Finset Pos) ∩
                    (P.other_buses.element_blocks ∪ P.other_buses.element_foundation_blocks ∪
                      s0.current_bussing.element_blocks ∪
                      s0.current_bussing.element_foundation_blocks ∪ P.instance_points)) :=
                  Finset.mem_inter.mpr ⟨hpP, hpU⟩
                rw [hempty] at this
                exact absurd this (Finset.not_mem_empty p)
  refine key steps P.initial_state ?_ st hrep
  intro p hp hpO
  exfalso
  have hp' : p ∈ ({P.start_pos, P.start_pos + direction_unit_pos Direction.down} :
      Finset Pos) := by
    have : (P.initial_state.current_bussing.element_foundation_blocks : Finset Pos) =
        {P.start_pos, P.start_pos + direction_unit_pos Direction.down} := by
      ext q
      simp [RedstonePathFindingProblem.initial_state,
        RedstoneBussing.element_foundation_blocks, RedstoneBussing.element_blocks,
        RedstoneBussing.foundation_blocks, fd_keys]
    rw [this] at hp
    exact hp
  have : p ∈ (({P.start_pos, P.start_pos + direction_unit_pos Direction.down} :
      Finset Pos) ∩
      (P.other_buses.element_blocks ∪ P.other_buses.element_foundation_blocks ∪
        P.instance_points)) := Finset.mem_inter.mpr ⟨hp', hpO⟩
  rw [hstart] at this
  exact absurd this (Finset.not_mem_empty p)

/-- Witness: the amended C1 theorem applies to plain_route_problem (start
and its foundation clear of obstacles, untruncated history) with the empty
replay. -/
theorem replay_elements_avoid_obstacles_witness :
    (({plain_route_problem.start_pos,
        plain_route_problem.start_pos + direction_unit_pos Direction.down} :
        Finset Pos) ∩
      (plain_route_problem.other_buses.element_blocks ∪
        plain_route_problem.other_buses.element_foundation_blocks ∪
        plain_route_problem.instance_points) = ∅) ∧
    plain_route_problem.history_limit = none ∧
    plain_route_problem.replay [] = some plain_route_problem.initial_state ∧
    (∀ p ∈ plain_route_problem.initial_state.current_bussing.element_foundation_blocks,
      p ∈ plain_route_problem.other_buses.element_blocks ∪
          plain_route_problem.other_buses.element_foundation_blocks ∪
          plain_route_problem.instance_points →
      p = plain_route_problem.end_pos ∨
        p = plain_route_problem.end_pos + direction_unit_pos Direction.down) :=
  ⟨by decide, rfl, rfl,
    replay_elements_avoid_obstacles plain_route_problem [] _ (by decide) rfl rfl⟩

theorem fd_lookup_append_last {β : Type} (l : List (Pos × β)) (q : Pos) (v : β) :
    fd_lookup (l ++ [(q, v)]) q = some v := by
  simp [fd_lookup]

theorem fd_lookup_mem {β : Type} {l : List (Pos × β)} {p : Pos} {v : β}
    (h : fd_lookup l p = some v) : (p, v) ∈ l := by
  simp only [fd_lookup, Option.map_eq_some'] at h
  obtain ⟨e, he, hv⟩ := h
  have hmem := List.mem_of_find?_eq_some he
  have hpred := List.find?_some he
  simp only [decide_eq_true_eq] at hpred
  rw [List.mem_reverse] at hmem
  have : e = (p, v) := by
    obtain ⟨e1, e2⟩ := e
    simp_all
  rw [this] at hmem
  exact hmem

theorem find?_filter_of_imp {α : Type} (l : List α) (p q : α → Bool)
    (himp : ∀ e, p e = true → q e = true) :
    List.find? p (l.filter q) = List.find? p l := by
  induction l with
  | nil => rfl
  | cons e t ih =>
    rcases hp : p e with _ | _
    · rcases hq : q e with _ | _
      · simp [List.filter_cons, hq, List.find?_cons, hp, ih]
      · simp [List.filter_cons, hq, List.find?_cons, hp, ih]
    · have hq := himp e hp
      simp [List.filter_cons, hq, List.find?_cons, hp]

theorem fd_lookup_filter {β : Type} (l : List (Pos × β)) (q : Pos)
    (pred : Pos × β → Bool) (hkeep : ∀ e, e.1 = q → pred e = true) :
    fd_lookup (l.filter pred) q = fd_lookup l q := by
  unfold fd_lookup
  rw [← List.filter_reverse]
  rw [find?_filter_of_imp]
  intro e he
  simp only [decide_eq_true_eq] at he
  exact hkeep e he

theorem next_steps_displacement {self : RedstonePathStep} {tf : Bool}
    {a : RedstonePathStep} (ha : a ∈ self.next_steps tf) :
    (|a.next_pos.x - self.next_pos.x| + |a.next_pos.z - self.next_pos.z| = 1) ∧
    -1 ≤ a.next_pos.y - self.next_pos.y ∧ a.next_pos.y - self.next_pos.y ≤ 1 ∧
    (a.is_repeater = true → a.next_pos.y - self.next_pos.y ≤ 0) := by
  simp only [RedstonePathStep.next_steps, List.mem_append, List.mem_flatMap,
    List.mem_map, List.mem_filter] at ha
  rcases ha with ⟨d, hd, dy, hdy, rfl⟩ | ⟨d, hd, sd, hsd, rfl⟩
  · obtain ⟨hdy1, _⟩ := hdy
    fin_cases hd <;> fin_cases hdy1 <;>
      simp [direction_unit_pos]
  · obtain ⟨hsd1, _⟩ := hsd
    fin_cases hd <;> fin_cases hsd1 <;>
      simp [direction_unit_pos, zero_pos]

/-- Destructuring a successful router transition: the momentum update and
add_step both succeeded, and the new bussing is add_step's result, with
history truncation applied exactly when a history limit is set. -/
theorem state_action_result_some {P : RedstonePathFindingProblem} {s : PartialBus}
    {a : RedstonePathStep} {s' : PartialBus}
    (h : P.state_action_result (some s) a = some s') :
    ∃ mx my mb nb, next_momentum_and_broken s a = some (mx, my, mb) ∧
      s.current_bussing.add_step P.other_buses P.instance_points
        s.current_position P.end_pos a = some nb ∧
      s'.current_position = a.next_pos ∧
      s'.momentum_xz_dir = some mx ∧ s'.momentum_y_dir = my ∧
      ((P.history_limit = none ∧ s'.current_bussing = nb) ∨
       ((∃ k, P.history_limit = some k) ∧
        s'.current_bussing = nb.with_truncated_history a.next_pos s.current_position)) := by
  simp only [RedstonePathFindingProblem.state_action_result] at h
  rcases hm : next_momentum_and_broken s a with _ | trip
  · rw [hm] at h
    exact absurd h (by simp)
  · rw [hm] at h
    rcases trip with ⟨mx, my, mb⟩
    rcases ha : s.current_bussing.add_step P.other_buses P.instance_points
        s.current_position P.end_pos a with _ | nb
    · rw [ha] at h
      exact absurd h (by simp)
    · rw [ha] at h
      rcases hh : P.history_limit with _ | k
      · rw [hh] at h
        obtain rfl := (Option.some.inj h).symm
        exact ⟨mx, my, mb, nb, rfl, rfl, rfl, rfl, rfl, Or.inl ⟨rfl, rfl⟩⟩
      · rw [hh] at h
        obtain rfl := (Option.some.inj h).symm
        exact ⟨mx, my, mb, nb, rfl, rfl, rfl, rfl, rfl, Or.inr ⟨⟨k, rfl⟩, rfl⟩⟩

/-- The strength bookkeeping invariant threaded through an untruncated
replay: the binding list starts with (start, 15), every recorded strength
is valid (1..15 or the repeater sentinel), the current voxel has a
recorded strength, and a repeater sentinel at the current voxel comes with
a repeater-direction entry. -/
theorem replay_strength_invariant (P : RedstonePathFindingProblem)
    (hhist : P.history_limit = none) :
    ∀ (acts : List RedstonePathStep) (s0 : PartialBus),
      ((∃ t, s0.current_bussing.element_sig_strengths =
          (P.start_pos, SigStrength.strength 15) :: t) ∧
        (∀ e ∈ s0.current_bussing.element_sig_strengths, SigStrength.valid e.2) ∧
        (∃ σ, fd_lookup s0.current_bussing.element_sig_strengths
          s0.current_position = some σ) ∧
        (fd_lookup s0.current_bussing.element_sig_strengths s0.current_position =
            some .repeater →
          s0.current_position ∈ s0.current_bussing.repeater_blocks)) →
      ∀ s, List.foldl (fun s a => P.state_action_result s a) (some s0) acts = some s →
      ((∃ t, s.current_bussing.element_sig_strengths =
          (P.start_pos, SigStrength.strength 15) :: t) ∧
        (∀ e ∈ s.current_bussing.element_sig_strengths, SigStrength.valid e.2) ∧
        (∃ σ, fd_lookup s.current_bussing.element_sig_strengths
          s.current_position = some σ) ∧
        (fd_lookup s.current_bussing.element_sig_strengths s.current_position =
            some .repeater →
          s.current_position ∈ s.current_bussing.repeater_blocks)) := by
  intro acts
  induction acts with
  | nil =>
    intro s0 h0 s hf
    obtain rfl := Option.some.inj hf
    exact h0
  | cons a rest ih =>
    intro s0 h0 s hf
    rw [List.foldl_cons] at hf
    rcases hsar : P.state_action_result (some s0) a with _ | s1
    · rw [hsar] at hf
      rw [replay_foldl_none] at hf
      exact absurd hf (by simp)
    · rw [hsar] at hf
      refine ih s1 ?_ s hf
      obtain ⟨mx, my, mb, nb, hm, ha, hpos, hmx, hmy, hbus⟩ := state_action_result_some hsar
      rcases hbus with ⟨_, hbus⟩ | ⟨⟨k, hk⟩, _⟩
      · obtain ⟨hcol, hnd, σ, hes, hσ0, hbr⟩ := add_step_success_spec ha
        obtain ⟨hhead, hvalid, ⟨τ, hτ⟩, hreplink⟩ := h0
        refine ⟨?_, ?_, ?_, ?_⟩
        · obtain ⟨t, ht⟩ := hhead
          exact ⟨t ++ [(a.next_pos, σ)], by rw [hbus, hes, ht]; rfl⟩
        · intro e he
          rw [hbus, hes] at he
          rcases List.mem_append.mp he with hold | hnew
          · exact hvalid e hold
          · have he2 : e = (a.next_pos, σ) := by simpa using hnew
            rw [he2]
            rcases hbr with ⟨_, hσ, _⟩ | ⟨_, _, ⟨hlp, hσ⟩ | ⟨n, hlp, hσ⟩⟩
            · rw [hσ]
              trivial
            · rw [hσ]
              exact ⟨by omega, by omega⟩
            · have hmem := fd_lookup_mem hlp
              have hv := hvalid _ hmem
              simp only [SigStrength.valid] at hv
              rw [hσ]
              simp only [SigStrength.valid]
              have hne : n - 1 ≠ 0 := by
                intro hc
                rw [hσ, hc] at hσ0
                exact hσ0 rfl
              omega
        · rw [hbus, hes, hpos]
          exact ⟨σ, fd_lookup_append_last _ _ _⟩
        · rw [hbus, hes, hpos]
          rw [fd_lookup_append_last]
          intro hσrep
          have hσrep := Option.some.inj hσrep
          rcases hbr with ⟨_, _, f, hfac, hrd⟩ | ⟨_, hrd, hwσ⟩
          · rw [RedstoneBussing.repeater_blocks, hrd, fd_keys]
            simp
          · exfalso
            rcases hwσ with ⟨_, hσ⟩ | ⟨n, _, hσ⟩ <;> rw [hσ] at hσrep <;>
              exact SigStrength.noConfusion hσrep
      · rw [hk] at hhist
        exact absurd hhist (by simp)

/-- C2: the signal-strength rules of add_step and their consequences for a
replayed path.  Per step: a successful add_step appends exactly one
binding at the new voxel, whose strength is the repeater sentinel for a
repeater step, 15 for a wire following a repeater, and s - 1 for a wire
following a wire of strength s, and a step whose next strength would be 0
fails.  Per replayed path (untruncated history): the binding list starts
with the start voxel at strength 15, every recorded strength is valid, and
at a goal state the end voxel carries a numeric strength in 1..15. -/
theorem redstone_path_strength_invariants (P : RedstonePathFindingProblem)
    (steps : List RedstonePathStep) (st : PartialBus)
    (hhist : P.history_limit = none) (hrep : P.replay steps = some st) :
    (∀ (self other : RedstoneBussing) (inst : Finset Pos) (prev endp : Pos)
        (step : RedstonePathStep) (nb : RedstoneBussing),
      RedstoneBussing.add_step self other inst prev endp step = some nb →
      ∃ σ, nb.element_sig_strengths = self.element_sig_strengths ++
          [(step.next_pos, σ)] ∧
        σ ≠ .strength 0 ∧
        (step.is_repeater = true → σ = .repeater) ∧
        (step.is_repeater = false →
          (fd_lookup self.element_sig_strengths prev = some .repeater →
            σ = .strength 15) ∧
          (∀ n, fd_lookup self.element_sig_strengths prev = some (.strength n) →
            σ = .strength (n - 1)))) ∧
    (∃ t, st.current_bussing.element_sig_strengths =
        (P.start_pos, SigStrength.strength 15) :: t) ∧
    (∀ e ∈ st.current_bussing.element_sig_strengths, SigStrength.valid e.2) ∧
    (P.is_goal_state (some st) = true →
      ∃ n, fd_lookup st.current_bussing.element_sig_strengths P.end_pos =
          some (.strength n) ∧ 1 ≤ n ∧ n ≤ 15) := by
  have hinv := replay_strength_invariant P hhist steps P.initial_state
    (by
      refine ⟨⟨[], rfl⟩, ?_, ⟨SigStrength.strength 15, by simp [fd_lookup,
        RedstonePathFindingProblem.initial_state]⟩, ?_⟩
      · intro e he
        simp only [RedstonePathFindingProblem.initial_state, List.mem_singleton] at he
        rw [he]
        exact ⟨by omega, by omega⟩
      · intro hlp
        have hlp0 : fd_lookup P.initial_state.current_bussing.element_sig_strengths
            P.initial_state.current_position = some (SigStrength.strength 15) := by
          simp [fd_lookup, RedstonePathFindingProblem.initial_state]
        rw [hlp0] at hlp
        exact absurd (Option.some.inj hlp) (by simp))
    st hrep
  obtain ⟨hhead, hvalid, ⟨σ, hσ⟩, hreplink⟩ := hinv
  refine ⟨?_, hhead, hvalid, ?_⟩
  · intro self other inst prev endp step nb h
    obtain ⟨_, _, σ₂, hes, hσ0, hbr⟩ := add_step_success_spec h
    refine ⟨σ₂, hes, hσ0, ?_, ?_⟩
    · intro hrep2
      rcases hbr with ⟨_, hσ₂, _⟩ | ⟨hw, _, _⟩
      · exact hσ₂
      · rw [hrep2] at hw
        exact absurd hw (by simp)
    · intro hwire
      rcases hbr with ⟨hr, _, _⟩ | ⟨_, _, hwσ⟩
      · rw [hwire] at hr
        exact absurd hr (by simp)
      · constructor
        · intro hlp
          rcases hwσ with ⟨_, hσ₂⟩ | ⟨n, hlp2, hσ₂⟩
          · exact hσ₂
          · rw [hlp] at hlp2
            have := Option.some.inj hlp2
            exact absurd this (by simp)
        · intro n hlp
          rcases hwσ with ⟨hlp2, hσ₂⟩ | ⟨m, hlp2, hσ₂⟩
          · rw [hlp] at hlp2
            have := Option.some.inj hlp2
            exact absurd this (by simp)
          · rw [hlp] at hlp2
            have hnm := Option.some.inj hlp2
            have : n = m := by
              cases hnm
              rfl
            rw [hσ₂, this]
  · intro hgoal
    simp only [RedstonePathFindingProblem.is_goal_state, Bool.and_eq_true,
      decide_eq_true_eq] at hgoal
    obtain ⟨hendpos, hnorep⟩ := hgoal
    rcases σ with n | _
    · have hmem := fd_lookup_mem hσ
      have hv := hvalid _ hmem
      simp only [SigStrength.valid] at hv
      rw [hendpos] at hσ
      exact ⟨n, hσ, hv.1, hv.2⟩
    · exact absurd (hreplink hσ) hnorep

/-- Witness: the C2 invariants instantiated at plain_route_problem with
the empty replay. -/
theorem redstone_path_strength_invariants_witness :
    plain_route_problem.history_limit = none ∧
    plain_route_problem.replay [] = some plain_route_problem.initial_state ∧
    ((∃ t, plain_route_problem.initial_state.current_bussing.element_sig_strengths =
        (plain_route_problem.start_pos, SigStrength.strength 15) :: t) ∧
      (∀ e ∈ plain_route_problem.initial_state.current_bussing.element_sig_strengths,
        SigStrength.valid e.2)) :=
  ⟨rfl, rfl,
    (redstone_path_strength_invariants plain_route_problem [] _ rfl rfl).2.1,
    (redstone_path_strength_invariants plain_route_problem [] _ rfl rfl).2.2.1⟩

theorem yLB_claim_le (δ : Int) (g : Nat) (ρ : Bool) (hg15 : g ≤ 15)
    (hg14 : ρ = false → g ≤ 14) :
    |δ| + |δ| / 16 ≤ (y_steps_lower_bound δ g ρ : Int) := by
  unfold y_steps_lower_bound
  rw [Int.abs_eq_natAbs]
  rcases ρ
  · have hg14 := hg14 rfl
    split_ifs <;> first | omega | simp_all
  · split_ifs <;> first | omega | simp_all

theorem yLB_wire_step_le (δ dy : Int) (g : Nat) (ρ ρ' : Bool)
    (hdy1 : -1 ≤ dy) (hdy2 : dy ≤ 1) (hρ : ρ = true → 0 ≤ dy) (hg : 1 ≤ g)
    (hg15 : g ≤ 15) :
    y_steps_lower_bound δ g ρ ≤ 1 + y_steps_lower_bound (δ - dy) (g - 1) ρ' := by
  unfold y_steps_lower_bound
  rcases ρ
  · rcases ρ' <;> split_ifs <;> first | omega | simp_all
  · have hdy0 : 0 ≤ dy := hρ rfl
    rcases ρ' <;> split_ifs <;> first | omega | simp_all

theorem yLB_repeater_step_le (δ dy : Int) (g : Nat) (ρ : Bool)
    (hdy1 : -1 ≤ dy) (hdy2 : dy ≤ 0) (hρ : ρ = true → 0 ≤ dy) :
    y_steps_lower_bound δ g ρ ≤ 1 + y_steps_lower_bound (δ - dy) 15 true := by
  unfold y_steps_lower_bound
  rcases ρ
  · split_ifs <;> first | omega | simp_all
  · have hdy0 : 0 ≤ dy := hρ rfl
    split_ifs <;> first | omega | simp_all

theorem state_action_cost_ge_one (P : RedstonePathFindingProblem)
    (s : PartialBus) (a : RedstonePathStep)
    (h1 : 0 ≤ P.early_repeater_cost) (h2 : 0 ≤ P.momentum_break_cost) :
    1 ≤ P.state_action_cost (some s) a := by
  simp only [RedstonePathFindingProblem.state_action_cost]
  repeat' split
  all_goals omega

theorem state_actions_displacement {P : RedstonePathFindingProblem} {s : PartialBus}
    {a : RedstonePathStep} (ha : a ∈ P.state_actions (some s)) :
    |a.next_pos.x - s.current_position.x| + |a.next_pos.z - s.current_position.z| = 1 ∧
    -1 ≤ a.next_pos.y - s.current_position.y ∧ a.next_pos.y - s.current_position.y ≤ 1 ∧
    (a.is_repeater = true → a.next_pos.y - s.current_position.y ≤ 0) := by
  simp only [RedstonePathFindingProblem.state_actions] at ha
  have h := next_steps_displacement ha
  simpa [RedstoneBussing.step_from_pos] using h

theorem wf_capacity_transition {P : RedstonePathFindingProblem} {s s' : PartialBus}
    {a : RedstonePathStep} (hwf : s.wf)
    (hsar : P.state_action_result (some s) a = some s') :
    s'.wf ∧ s'.current_position = a.next_pos ∧
    (s.at_repeater = true → 0 ≤ a.next_pos.y - s.current_position.y) ∧
    (a.is_repeater = true → s'.capacity = 15 ∧ s'.at_repeater = true) ∧
    (a.is_repeater = false → s'.capacity = s.capacity - 1 ∧ 1 ≤ s.capacity ∧
      s.capacity ≤ 15) := by
  obtain ⟨hvalid, ⟨τ, hτ⟩, hlink⟩ := hwf
  obtain ⟨mx, my, mb, nb, hm, ha, hpos, hmx, hmy, hbus⟩ := state_action_result_some hsar
  obtain ⟨hcol, hnd, σ, hes, hσ0, hbr⟩ := add_step_success_spec ha
  -- the new bussing looks up σ at the new position, whether or not truncated
  have hlook : fd_lookup s'.current_bussing.element_sig_strengths a.next_pos =
      some σ := by
    rcases hbus with ⟨_, hbus⟩ | ⟨_, hbus⟩
    · rw [hbus, hes]
      exact fd_lookup_append_last _ _ _
    · rw [hbus]
      simp only [RedstoneBussing.with_truncated_history]
      rw [fd_lookup_filter]
      · rw [hes]
        exact fd_lookup_append_last _ _ _
      · intro e he
        simp [he]
  -- new list membership reduces to old membership or the appended binding
  have hmem_of : ∀ e, e ∈ s'.current_bussing.element_sig_strengths →
      e ∈ s.current_bussing.element_sig_strengths ∨ e = (a.next_pos, σ) := by
    intro e he
    rcases hbus with ⟨_, hbus⟩ | ⟨_, hbus⟩
    · rw [hbus, hes] at he
      rcases List.mem_append.mp he with h1 | h2
      · exact Or.inl h1
      · exact Or.inr (by simpa using h2)
    · rw [hbus] at he
      simp only [RedstoneBussing.with_truncated_history] at he
      have := List.mem_of_mem_filter he
      rw [hes] at this
      rcases List.mem_append.mp this with h1 | h2
      · exact Or.inl h1
      · exact Or.inr (by simpa using h2)
  -- validity of the appended strength
  have hσvalid : SigStrength.valid σ := by
    rcases hbr with ⟨_, hσ, _⟩ | ⟨_, _, ⟨_, hσ⟩ | ⟨n, hlp, hσ⟩⟩
    · rw [hσ]
      trivial
    · rw [hσ]
      exact ⟨by omega, by omega⟩
    · have hv := hvalid _ (fd_lookup_mem hlp)
      simp only [SigStrength.valid] at hv
      rw [hσ]
      refine ⟨?_, by omega⟩
      have : n - 1 ≠ 0 := by
        intro hc
        rw [hσ, hc] at hσ0
        exact hσ0 rfl
      omega
  -- repeater-key membership for repeater steps
  have hrepkey : a.is_repeater = true →
      a.next_pos ∈ s'.current_bussing.repeater_blocks := by
    intro hr
    rcases hbr with ⟨_, _, f, hfac, hrd⟩ | ⟨hw, _, _⟩
    · rcases hbus with ⟨_, hbus⟩ | ⟨_, hbus⟩
      · rw [hbus, RedstoneBussing.repeater_blocks, hrd, fd_keys]
        simp
      · rw [hbus]
        simp only [RedstoneBussing.with_truncated_history,
          RedstoneBussing.repeater_blocks, fd_keys]
        simp only [List.mem_toFinset, List.mem_map]
        refine ⟨(a.next_pos, f), ?_, rfl⟩
        rw [List.mem_filter, hrd]
        simp
    · rw [hr] at hw
      exact absurd hw (by simp)
  -- wire steps leave the repeater keys unchanged in the full history
  refine ⟨⟨?_, ⟨σ, by rw [hpos]; exact hlook⟩, ?_⟩, hpos, ?_, ?_, ?_⟩
  · -- all recorded strengths stay valid
    intro e he
    rcases hmem_of e he with hold | hnew
    · exact hvalid e hold
    · rw [hnew]
      exact hσvalid
  · -- repeater sentinel at the current voxel implies a repeater key
    rw [hpos, hlook]
    intro hσrep
    have hσrep := Option.some.inj hσrep
    rcases hbr with ⟨hr, _, _⟩ | ⟨_, _, hwσ⟩
    · exact hrepkey hr
    · exfalso
      rcases hwσ with ⟨_, hσ⟩ | ⟨n, _, hσ⟩ <;> rw [hσ] at hσrep <;>
        exact SigStrength.noConfusion hσrep
  · -- no descending step directly after a repeater
    intro hrep
    by_contra hlt
    refine hnd ⟨?_, by omega⟩
    exact of_decide_eq_true hrep
  · -- a repeater step puts capacity 15 at a repeater element
    intro hr
    constructor
    · rw [PartialBus.capacity, hpos, hlook]
      rcases hbr with ⟨_, hσ, _⟩ | ⟨hw, _, _⟩
      · rw [hσ]
      · rw [hr] at hw
        exact absurd hw (by simp)
    · rw [PartialBus.at_repeater]
      rw [hpos]
      exact decide_eq_true (hrepkey hr)
  · -- a wire step decrements the capacity
    intro hr
    rcases hbr with ⟨hr2, _, _⟩ | ⟨_, _, ⟨hlp, hσ⟩ | ⟨n, hlp, hσ⟩⟩
    · rw [hr] at hr2
      exact absurd hr2 (by simp)
    · have hτrep : τ = SigStrength.repeater := by
        rw [hτ] at hlp
        exact Option.some.inj hlp
      have hcap : s.capacity = 15 := by
        simp only [PartialBus.capacity, hτ, hτrep]
      have hcap2 : s'.capacity = 14 := by
        simp only [PartialBus.capacity, hpos, hlook, hσ]
        rfl
      rw [hcap, hcap2]
      norm_num
    · have hτn : τ = SigStrength.strength n := by
        rw [hτ] at hlp
        exact Option.some.inj hlp
      have hv := hvalid _ (fd_lookup_mem hτ)
      rw [hτn] at hv
      simp only [SigStrength.valid] at hv
      have hne : n - 1 ≠ 0 := by
        intro hc
        rw [hσ, hc] at hσ0
        exact hσ0 rfl
      have hcap : s.capacity = (n - 1).toNat := by
        simp only [PartialBus.capacity, hτ, hτn]
      have hcap2 : s'.capacity = (n - 1 - 1).toNat := by
        simp only [PartialBus.capacity, hpos, hlook, hσ]
      rw [hcap, hcap2]
      refine ⟨by omega, by omega, by omega⟩

theorem step_potential_transition {P : RedstonePathFindingProblem} {s s2 : PartialBus}
    {a : RedstonePathStep} (hwf : s.wf)
    (hmem : a ∈ P.state_actions (some s))
    (hsar : P.state_action_result (some s) a = some s2) :
    s2.wf ∧ step_potential P s ≤ 1 + step_potential P s2 := by
  obtain ⟨hxz, hdy1, hdy2, hrepdy⟩ := state_actions_displacement hmem
  obtain ⟨hwf2, hpos, hnodesc, hreptr, hwires⟩ := wf_capacity_transition hwf hsar
  refine ⟨hwf2, ?_⟩
  unfold step_potential
  have hxz2 : (P.end_pos - s.current_position).xz_pos.l1.toNat ≤
      1 + (P.end_pos - s2.current_position).xz_pos.l1.toNat := by
    rw [hpos]
    simp only [Int.abs_eq_natAbs] at hxz
    simp only [Pos.l1, Pos.xz_pos, pos_sub_def, Int.abs_eq_natAbs]
    omega
  have hy2 : y_steps_lower_bound (P.end_pos.y - s.current_position.y)
      s.capacity s.at_repeater ≤
      1 + y_steps_lower_bound (P.end_pos.y - s2.current_position.y)
        s2.capacity s2.at_repeater := by
    have hδ : P.end_pos.y - s2.current_position.y =
        (P.end_pos.y - s.current_position.y) - (a.next_pos.y - s.current_position.y) := by
      rw [hpos]
      ring
    rcases hir : a.is_repeater with _ | _
    · obtain ⟨hcap2, hcap1, hcap15⟩ := hwires hir
      rw [hδ, hcap2]
      exact yLB_wire_step_le _ _ _ _ _ hdy1 hdy2 (fun h => hnodesc h) hcap1 hcap15
    · obtain ⟨hcap2, hrep2⟩ := hreptr hir
      rw [hδ, hcap2, hrep2]
      exact yLB_repeater_step_le _ _ _ _ hdy1 (hrepdy hir) (fun h => hnodesc h)
  refine Nat.max_le.mpr ⟨?_, ?_⟩
  · refine le_trans hxz2 ?_
    have := Nat.le_max_left (P.end_pos - s2.current_position).xz_pos.l1.toNat
      (y_steps_lower_bound (P.end_pos.y - s2.current_position.y) s2.capacity
        s2.at_repeater)
    omega
  · refine le_trans hy2 ?_
    have := Nat.le_max_right (P.end_pos - s2.current_position).xz_pos.l1.toNat
      (y_steps_lower_bound (P.end_pos.y - s2.current_position.y) s2.capacity
        s2.at_repeater)
    omega

theorem potential_at_goal {P : RedstonePathFindingProblem} {s : PartialBus}
    (hgoal : P.is_goal_state (some s) = true) : step_potential P s = 0 := by
  simp only [RedstonePathFindingProblem.is_goal_state, Bool.and_eq_true,
    decide_eq_true_eq] at hgoal
  obtain ⟨hpos, _⟩ := hgoal
  unfold step_potential y_steps_lower_bound
  rw [hpos]
  simp [Pos.l1, Pos.xz_pos]

theorem distance_min_steps_le_potential {P : RedstonePathFindingProblem}
    {s : PartialBus} (hwf : s.wf) :
    P.distance_min_steps s ≤ (step_potential P s : Int) := by
  obtain ⟨hvalid, ⟨τ, hτ⟩, hlink⟩ := hwf
  have hcap : s.capacity ≤ 15 ∧ (s.at_repeater = false → s.capacity ≤ 14) := by
    rcases τ with n | _
    · have hv := hvalid _ (fd_lookup_mem hτ)
      simp only [SigStrength.valid] at hv
      simp only [PartialBus.capacity, hτ]
      exact ⟨by omega, fun _ => by omega⟩
    · simp only [PartialBus.capacity, hτ]
      refine ⟨le_refl _, ?_⟩
      intro hfalse
      rw [PartialBus.at_repeater] at hfalse
      have := hlink hτ
      rw [decide_eq_false_iff_not] at hfalse
      exact absurd this hfalse
  unfold RedstonePathFindingProblem.distance_min_steps step_potential
  refine max_le ?_ ?_
  · have h0 : 0 ≤ (P.end_pos - s.current_position).xz_pos.l1 := by
      simp only [Pos.l1, Pos.xz_pos, pos_sub_def, Int.abs_eq_natAbs]
      omega
    rw [Nat.cast_max]
    refine le_trans ?_ (le_max_left _ _)
    omega
  · rw [Nat.cast_max]
    refine le_trans ?_ (le_max_right _ _)
    exact yLB_claim_le _ _ _ hcap.1 hcap.2

theorem run_seq_bound (P : RedstonePathFindingProblem)
    (h1 : 0 ≤ P.early_repeater_cost) (h2 : 0 ≤ P.momentum_break_cost) :
    ∀ (acts : List RedstonePathStep) (s : PartialBus), s.wf →
      ∀ final total, P.run_action_seq s acts = some (final, total) →
      final.wf ∧ (step_potential P s : Int) ≤ total + step_potential P final := by
  intro acts
  induction acts with
  | nil =>
    intro s hwf final total hrun
    simp only [RedstonePathFindingProblem.run_action_seq] at hrun
    obtain ⟨hf, ht⟩ := Prod.mk.injEq _ _ _ _ ▸ Option.some.inj hrun
    rw [← hf, ← ht]
    exact ⟨hwf, by omega⟩
  | cons a rest ih =>
    intro s hwf final total hrun
    simp only [RedstonePathFindingProblem.run_action_seq] at hrun
    by_cases hmem : a ∈ P.state_actions (some s)
    · rw [if_pos hmem] at hrun
      rcases hsar : P.state_action_result (some s) a with _ | s1
      · rw [hsar] at hrun
        exact absurd hrun (by simp)
      · rw [hsar] at hrun
        rcases hrest : P.run_action_seq s1 rest with _ | p2
        · simp only [hrest] at hrun
          exact absurd hrun (by simp)
        · rcases p2 with ⟨fin2, c2⟩
          simp only [hrest] at hrun
          obtain ⟨hf, ht⟩ := Prod.mk.injEq _ _ _ _ ▸ Option.some.inj hrun
          obtain ⟨hwf1, hstep⟩ := step_potential_transition hwf hmem hsar
          obtain ⟨hwfF, hbound⟩ := ih s1 hwf1 fin2 c2 hrest
          have hcost := state_action_cost_ge_one P s a h1 h2
          rw [← hf, ← ht]
          exact ⟨hwfF, by omega⟩
    · rw [if_neg hmem] at hrun
      exact absurd hrun (by simp)

/-- C3 counterexample: in c3_zigzag_problem (end four blocks straight up),
the ascending zigzag east-up, west-up, east-up reaches a state whose
min_cost is 4: the distance part is max(1, 4 + 0) = 4 and the momentum
part is 0 — but min_xz_turns and min_y_turns make the full heuristic 4
only because the momentum term is 0 here; the state's min_cost equals 4
while one further west-up wire step (cost 1, momentum unbroken) reaches
the goal.  The heuristic therefore exceeds the true remaining cost and is
not admissible. -/
theorem min_cost_momentum_not_admissible :
    ((c3_zigzag_problem.run_action_seq c3_zigzag_problem.initial_state
        [⟨⟨1, 1, 0⟩, false, none⟩, ⟨⟨0, 2, 0⟩, false, none⟩,
         ⟨⟨1, 3, 0⟩, false, none⟩]).bind fun p =>
      (c3_zigzag_problem.run_action_seq p.1 [⟨⟨0, 4, 0⟩, false, none⟩]).map fun q =>
        (c3_zigzag_problem.min_cost (some p.1), q.2,
         c3_zigzag_problem.is_goal_state (some q.1))) = some (4, 1, true) ∧
    ¬ ((4 : Int) ≤ 1) := ⟨by decide, by decide⟩

/-- C3 (amended): the distance part of the heuristic —
max(XZ L1 distance, |Δy| + ⌊|Δy|/16⌋), without the momentum-break term —
is admissible: for every well-formed router state, it bounds from below
the summed state_action_cost of every legal action sequence reaching a
goal state, whenever the two cost parameters are nonnegative (their
defaults are 12 and 3). -/
theorem min_cost_distance_part_admissible (P : RedstonePathFindingProblem)
    (s final : PartialBus) (acts : List RedstonePathStep) (total : Int)
    (hwf : s.wf) (h1 : 0 ≤ P.early_repeater_cost) (h2 : 0 ≤ P.momentum_break_cost)
    (hrun : P.run_action_seq s acts = some (final, total))
    (hgoal : P.is_goal_state (some final) = true) :
    P.distance_min_steps s ≤ total := by
  obtain ⟨hwfF, hbound⟩ := run_seq_bound P h1 h2 acts s hwf final total hrun
  rw [potential_at_goal hgoal] at hbound
  have hle := @distance_min_steps_le_potential P s hwf
  omega

/-- Witness: the amended C3 theorem applied to plain_route_problem with
the five-step straight route east, which reaches the goal at total cost 5;
the distance bound 5 is attained. -/
theorem min_cost_distance_part_admissible_witness :
    ∃ final total,
      plain_route_problem.initial_state.wf ∧
      0 ≤ plain_route_problem.early_repeater_cost ∧
      0 ≤ plain_route_problem.momentum_break_cost ∧
      plain_route_problem.run_action_seq plain_route_problem.initial_state
        [⟨⟨1, 0, 0⟩, false, none⟩, ⟨⟨2, 0, 0⟩, false, none⟩, ⟨⟨3, 0, 0⟩, false, none⟩,
         ⟨⟨4, 0, 0⟩, false, none⟩, ⟨⟨5, 0, 0⟩, false, none⟩] = some (final, total) ∧
      plain_route_problem.is_goal_state (some final) = true ∧
      plain_route_problem.distance_min_steps plain_route_problem.initial_state ≤ total := by
  have hwf0 : plain_route_problem.initial_state.wf := by
    refine ⟨?_, ⟨SigStrength.strength 15, by decide⟩, fun hlp => absurd hlp (by decide)⟩
    intro e he
    have : e = (⟨0, 0, 0⟩, SigStrength.strength 15) := by
      simpa [RedstonePathFindingProblem.initial_state, plain_route_problem] using he
    rw [this]
    exact ⟨by omega, by omega⟩
  have hmap : ((plain_route_problem.run_action_seq plain_route_problem.initial_state
      [⟨⟨1, 0, 0⟩, false, none⟩, ⟨⟨2, 0, 0⟩, false, none⟩, ⟨⟨3, 0, 0⟩, false, none⟩,
       ⟨⟨4, 0, 0⟩, false, none⟩, ⟨⟨5, 0, 0⟩, false, none⟩]).map fun p =>
      (plain_route_problem.is_goal_state (some p.1), p.2)) = some (true, 5) := by
    decide
  rcases hr : plain_route_problem.run_action_seq plain_route_problem.initial_state
      [⟨⟨1, 0, 0⟩, false, none⟩, ⟨⟨2, 0, 0⟩, false, none⟩, ⟨⟨3, 0, 0⟩, false, none⟩,
       ⟨⟨4, 0, 0⟩, false, none⟩, ⟨⟨5, 0, 0⟩, false, none⟩] with _ | p
  · rw [hr] at hmap
    exact absurd hmap (by simp)
  · rcases p with ⟨final, total⟩
    rw [hr] at hmap
    simp only [Option.map_some', Option.some.injEq, Prod.mk.injEq] at hmap
    obtain ⟨hgoal, htot⟩ := hmap
    exact ⟨final, total, hwf0, by decide, by decide, rfl, hgoal,
      min_cost_distance_part_admissible plain_route_problem
        plain_route_problem.initial_state final _ total hwf0 (by decide) (by decide)
        hr hgoal⟩
